import Mathlib

/-!
Array-backed binary heap priority queue (`pq.c`).

A shallow embedding of `pq.c` and a verification of its specification.

Modelling conventions.

* C `int` values are mathematical integers (`Int`).  The program performs no arithmetic on the
  stored elements (they are only moved and handed to the comparator), and index arithmetic is
  assumed to stay inside the `int` range.
* The block `pq->arr` is a `List Int` whose length is the number of allocated slots.  `rd` and `wr`
  are the array read and write.  A store whose index lies outside the block leaves the block as it
  is, and a read outside the block yields `0`; memory safety of the accesses is a separate
  question from the contents of the block, and is treated through `push_pq_accesses` and
  `pop_pq_accesses`, which list the indices each function accesses.  What a store outside the
  block does to the memory around the block, and so to a later `realloc`, is not modelled.
* The forced crash `*((int*)NULL) = 1` ends the run: `Outcome.crash` records the heap as it is at
  that moment.
* The two `while` loops are unrolled with an explicit iteration budget; `Outcome.out_of_budget` is
  the result when the budget is used up while the loop condition still holds.  `push_pq` and
  `pop_pq` pass a budget that is proved to be always sufficient.
-/

namespace PQ

/-- The struct `priority_queue` (lines 6-12). -/
structure priority_queue where
  n : Int
  arr : List Int
  last_index : Int
  resize_if_needed : Int
  cmp : Int → Int → Int

/-- Result of running a function of the program. -/
inductive Outcome (α : Type) where
  /-- normal return -/
  | ret (a : α)
  /-- the forced crash was executed; `pq` is the heap at that moment -/
  | crash (pq : priority_queue)
  /-- the iteration budget of a loop was exhausted -/
  | out_of_budget

/-- Array read `arr[i]`. -/
def rd (arr : List Int) (i : Int) : Int :=
  if 0 ≤ i then arr.getD i.toNat 0 else 0

/-- Array write `arr[i] = v`. -/
def wr (arr : List Int) (i : Int) (v : Int) : List Int :=
  if 0 ≤ i then arr.set i.toNat v else arr

/-- The block returned by `realloc(arr, n * sizeof(int))`: the old contents up to the smaller of
the two sizes, the new slots (whose contents C leaves unspecified) filled with `0`. -/
def realloc (arr : List Int) (n : Int) : List Int :=
  arr.take n.toNat ++ List.replicate (n.toNat - arr.length) 0

/-- The value of `(int) ceil(n * 1.5)` (line 64), in integer arithmetic. -/
def ceil_1_5 (n : Int) : Int := (3 * n + 1) / 2

/-- Function `init_queue` (lines 26-34); the fresh block is modelled as zero-filled. -/
def init_queue (n : Int) (cmp : Int → Int → Int) (resize_if_needed : Int) : priority_queue :=
  { n := n
    arr := List.replicate n.toNat 0
    last_index := 0
    cmp := cmp
    resize_if_needed := resize_if_needed }

/-- Function `father` (lines 52-55). -/
def father (_pq : priority_queue) (index : Int) : Int :=
  if index ≤ 0 then -1 else Int.tdiv (index - 1) 2

/-- Function `left_son` (lines 86-90). -/
def left_son (pq : priority_queue) (index : Int) : Int :=
  if index * 2 + 1 < 0 ∨ index * 2 + 1 ≥ pq.last_index then -1 else index * 2 + 1

/-- Function `right_son` (lines 95-99). -/
def right_son (pq : priority_queue) (index : Int) : Int :=
  if index * 2 + 2 < 0 ∨ index * 2 + 2 ≥ pq.last_index then -1 else index * 2 + 2

/-- Function `min_cmp` (lines 104-106). -/
def min_cmp (a b : Int) : Int := if a < b then 1 else 0

/-- Function `max_cmp` (lines 111-113). -/
def max_cmp (a b : Int) : Int := if a > b then 1 else 0

/-- One pass through the `while` of `push_pq` (lines 74-79): `none` when the loop condition is
false, otherwise the heap after the swap and the new `tmp_ind`. -/
def sift_up_step (pq : priority_queue) (tmp_ind : Int) : Option (priority_queue × Int) :=
  if father pq tmp_ind ≠ -1 ∧
      pq.cmp (rd pq.arr tmp_ind) (rd pq.arr (father pq tmp_ind)) = 1 then
    some ({ pq with
            arr := wr (wr pq.arr (father pq tmp_ind) (rd pq.arr tmp_ind)) tmp_ind
                      (rd pq.arr (father pq tmp_ind)) },
          father pq tmp_ind)
  else none

/-- The `while` loop of `push_pq` with an iteration budget. -/
def sift_up : Nat → priority_queue → Int → Option priority_queue
  | 0, pq, tmp_ind =>
    match sift_up_step pq tmp_ind with
    | none => some pq
    | some _ => none
  | budget + 1, pq, tmp_ind =>
    match sift_up_step pq tmp_ind with
    | none => some pq
    | some (pq1, ind1) => sift_up budget pq1 ind1

/-- Lines 71-80 of `push_pq`: store the element at `last_index`, sift it up, increment
`last_index`. -/
def push_store (pq : priority_queue) (new_elem : Int) : Outcome priority_queue :=
  match sift_up pq.last_index.toNat { pq with arr := wr pq.arr pq.last_index new_elem }
      pq.last_index with
  | some pq1 => Outcome.ret { pq1 with last_index := pq1.last_index + 1 }
  | none => Outcome.out_of_budget

/-- Function `push_pq` (lines 62-81). -/
def push_pq (pq : priority_queue) (new_elem : Int) : Outcome priority_queue :=
  if pq.last_index = pq.n ∧ pq.resize_if_needed ≠ 0 then
    push_store { pq with n := ceil_1_5 pq.n, arr := realloc pq.arr (ceil_1_5 pq.n) } new_elem
  else if pq.last_index = pq.n ∧ ¬ (pq.resize_if_needed ≠ 0) then
    Outcome.crash pq
  else
    push_store pq new_elem

/-- Function `top_pq` (lines 118-121). -/
def top_pq (pq : priority_queue) : Outcome Int :=
  if pq.last_index = 0 then Outcome.crash pq else Outcome.ret (rd pq.arr 0)

/-- The locals `(val, ind)` of the sift-down loop after the two `if`s of lines 137-146. -/
def sift_down_pick (pq : priority_queue) (tmp_ind : Int) : Int × Int :=
  let p1 : Int × Int :=
    if left_son pq tmp_ind ≠ -1 ∧
        pq.cmp (rd pq.arr tmp_ind) (rd pq.arr (left_son pq tmp_ind)) = 0 then
      (rd pq.arr (left_son pq tmp_ind), left_son pq tmp_ind)
    else (rd pq.arr tmp_ind, tmp_ind)
  if right_son pq tmp_ind ≠ -1 ∧ pq.cmp p1.1 (rd pq.arr (right_son pq tmp_ind)) = 0 then
    (rd pq.arr (right_son pq tmp_ind), right_son pq tmp_ind)
  else p1

/-- One pass through the `while` of `pop_pq` (lines 136-152): `none` when the loop is left (its
condition is false, or the `break` is taken), otherwise the heap after the swap and the new
`tmp_ind`. -/
def sift_down_step (pq : priority_queue) (tmp_ind : Int) : Option (priority_queue × Int) :=
  if left_son pq tmp_ind ≠ -1 ∨ right_son pq tmp_ind ≠ -1 then
    if tmp_ind = (sift_down_pick pq tmp_ind).2 then none
    else
      some ({ pq with
              arr := wr (wr pq.arr tmp_ind (sift_down_pick pq tmp_ind).1)
                        (sift_down_pick pq tmp_ind).2 (rd pq.arr tmp_ind) },
            (sift_down_pick pq tmp_ind).2)
  else none

/-- The `while` loop of `pop_pq` with an iteration budget. -/
def sift_down : Nat → priority_queue → Int → Option priority_queue
  | 0, pq, tmp_ind =>
    match sift_down_step pq tmp_ind with
    | none => some pq
    | some _ => none
  | budget + 1, pq, tmp_ind =>
    match sift_down_step pq tmp_ind with
    | none => some pq
    | some (pq1, ind1) => sift_down budget pq1 ind1

/-- The heap of `pop_pq` when the loop is entered (lines 132-135): `arr[last_index] = 0`, then
`arr[0] = arr[--last_index]`. -/
def pop_move (pq : priority_queue) : priority_queue :=
  { pq with
    arr := wr (wr pq.arr pq.last_index 0) 0 (rd (wr pq.arr pq.last_index 0) (pq.last_index - 1))
    last_index := pq.last_index - 1 }

/-- Function `pop_pq` (lines 126-153). -/
def pop_pq (pq : priority_queue) : Outcome priority_queue :=
  if pq.last_index = 0 then Outcome.crash pq
  else
    match sift_down (pop_move pq).last_index.toNat (pop_move pq) 0 with
    | some pq1 => Outcome.ret pq1
    | none => Outcome.out_of_budget

/-- Function `init_fixed_size_priority_queue` (lines 158-160). -/
def init_fixed_size_priority_queue (n : Int) (cmp : Int → Int → Int) : priority_queue :=
  init_queue n cmp 0

/-- Function `init_resizable_priority_queue` (lines 166-168). -/
def init_resizable_priority_queue (cmp : Int → Int → Int) : priority_queue :=
  init_queue 1 cmp 1

/-- Function `empty_pq` (lines 172-174). -/
def empty_pq (pq : priority_queue) : Int :=
  if pq.last_index = 0 then 1 else 0

/-! Section: Specification vocabulary -/

/-- The live elements `storage[0..size)`. -/
def live (pq : priority_queue) : List Int :=
  pq.arr.take pq.last_index.toNat

/-- Representation invariant: the block has `n` slots and `0 ≤ size ≤ capacity`. -/
def wf (pq : priority_queue) : Prop :=
  (pq.arr.length : Int) = pq.n ∧ 0 ≤ pq.last_index ∧ pq.last_index ≤ pq.n

/-- Heap order over the first `size` slots: no non-root slot `i < size` strictly outranks slot
`(i - 1) / 2`. -/
def heap_order (cmp : Int → Int → Int) (arr : List Int) (size : Int) : Prop :=
  ∀ i ∈ List.range size.toNat, 0 < i → cmp (rd arr i) (rd arr (((i : Int) - 1) / 2)) ≠ 1

/-- The heap-order invariant of a heap. -/
def heap_ok (pq : priority_queue) : Prop :=
  heap_order pq.cmp pq.arr pq.last_index

instance (pq : priority_queue) : Decidable (wf pq) := by
  unfold wf; infer_instance

instance (cmp : Int → Int → Int) (arr : List Int) (size : Int) :
    Decidable (heap_order cmp arr size) := by
  unfold heap_order; infer_instance

instance (pq : priority_queue) : Decidable (heap_ok pq) := by
  unfold heap_ok; infer_instance

/-- An operation a caller performs on the heap. -/
inductive Op where
  | push (v : Int)
  | pop

/-- Run a sequence of operations, stopping at the first one that does not return. -/
def run : List Op → priority_queue → Outcome priority_queue
  | [], pq => Outcome.ret pq
  | Op.push v :: ops, pq =>
    match push_pq pq v with
    | Outcome.ret pq1 => run ops pq1
    | Outcome.crash s => Outcome.crash s
    | Outcome.out_of_budget => Outcome.out_of_budget
  | Op.pop :: ops, pq =>
    match pop_pq pq with
    | Outcome.ret pq1 => run ops pq1
    | Outcome.crash s => Outcome.crash s
    | Outcome.out_of_budget => Outcome.out_of_budget

/-- Number of pushes in a sequence of operations. -/
def pushes : List Op → Nat
  | [] => 0
  | Op.push _ :: ops => pushes ops + 1
  | Op.pop :: ops => pushes ops

/-- Number of pops in a sequence of operations. -/
def pops : List Op → Nat
  | [] => 0
  | Op.push _ :: ops => pops ops
  | Op.pop :: ops => pops ops + 1

/-- Push the elements of a list in order. -/
def push_all (xs : List Int) (pq : priority_queue) : Outcome priority_queue :=
  run (xs.map Op.push) pq

/-- Perform `top_pq` then `pop_pq` `k` times, collecting the values returned by `top_pq`. -/
def drain : Nat → priority_queue → Outcome (List Int × priority_queue)
  | 0, pq => Outcome.ret ([], pq)
  | k + 1, pq =>
    match top_pq pq with
    | Outcome.ret v =>
      match pop_pq pq with
      | Outcome.ret pq1 =>
        match drain k pq1 with
        | Outcome.ret (vs, pq2) => Outcome.ret (v :: vs, pq2)
        | Outcome.crash s => Outcome.crash s
        | Outcome.out_of_budget => Outcome.out_of_budget
      | Outcome.crash s => Outcome.crash s
      | Outcome.out_of_budget => Outcome.out_of_budget
    | Outcome.crash s => Outcome.crash s
    | Outcome.out_of_budget => Outcome.out_of_budget

/-- Push all of `xs`, then drain as many elements as were pushed: the values read and the final
heap. -/
def heap_sort (xs : List Int) (pq : priority_queue) : Outcome (List Int × priority_queue) :=
  match push_all xs pq with
  | Outcome.ret pq1 => drain xs.length pq1
  | Outcome.crash s => Outcome.crash s
  | Outcome.out_of_budget => Outcome.out_of_budget

/-- The values returned by a run, if it returned. -/
def Outcome.values : Outcome (List Int × priority_queue) → Option (List Int)
  | Outcome.ret (vs, _) => some vs
  | _ => none

/-- A comparator that decides a strict priority order with results `0` and `1`: it is asymmetric,
and "does not outrank" is transitive. -/
structure priority_order (cmp : Int → Int → Int) : Prop where
  bool : ∀ a b, cmp a b = 0 ∨ cmp a b = 1
  asymm : ∀ a b, cmp a b = 1 → cmp b a ≠ 1
  trans : ∀ a b c, cmp b a ≠ 1 → cmp c b ≠ 1 → cmp c a ≠ 1


/-- Heap order over the first `m` slots except possibly between slot `k` and its father; the sons
of `k` do not outrank the father of `k`.  This is the loop invariant of sift-up. -/
def up_inv (cmp : Int → Int → Int) (arr : List Int) (m k : Int) : Prop :=
  (∀ i : Int, 0 < i → i < m → i ≠ k → cmp (rd arr i) (rd arr ((i - 1) / 2)) ≠ 1) ∧
  (∀ i : Int, 0 < i → i < m → (i - 1) / 2 = k → 0 < k →
    cmp (rd arr i) (rd arr ((k - 1) / 2)) ≠ 1)

/-- Heap order over the first `m` slots except possibly between slot `k` and its sons; the sons
of `k` do not outrank the father of `k`.  This is the loop invariant of sift-down. -/
def down_inv (cmp : Int → Int → Int) (arr : List Int) (m k : Int) : Prop :=
  (∀ i : Int, 0 < i → i < m → (i - 1) / 2 ≠ k → cmp (rd arr i) (rd arr ((i - 1) / 2)) ≠ 1) ∧
  (∀ i : Int, 0 < i → i < m → (i - 1) / 2 = k → 0 < k →
    cmp (rd arr i) (rd arr ((k - 1) / 2)) ≠ 1)

/-- A full fixed-size min-heap with six live elements. -/
def sample_full : priority_queue :=
  { n := 6, arr := [1, 2, 2, 3, 4, 5], last_index := 6, resize_if_needed := 0, cmp := min_cmp }

/-- A fixed-size max-heap with three live elements and room for one more. -/
def sample_room : priority_queue :=
  { n := 4, arr := [9, 4, 7, 0], last_index := 3, resize_if_needed := 0, cmp := max_cmp }


/-- A full growable min-heap of capacity 1. -/
def sample_grow : priority_queue :=
  { n := 1, arr := [3], last_index := 1, resize_if_needed := 1, cmp := min_cmp }

/-- The value of `last_index` after a run, if it returned. -/
def Outcome.final_size : Outcome (List Int × priority_queue) → Option Int
  | Outcome.ret (_, pq) => some pq.last_index
  | _ => none

/-! Section: Array accesses -/

/-- Indices of the array accesses made by one pass through the `while` of `pop_pq`
(lines 136-152): the reads of lines 137-146, which are guarded by the `!= -1` tests, and, unless
the `break` is taken, the read and the two stores of lines 148-150. -/
def sift_down_step_accesses (pq : priority_queue) (tmp_ind : Int) : List Int :=
  if left_son pq tmp_ind ≠ -1 ∨ right_son pq tmp_ind ≠ -1 then
    [tmp_ind] ++
    (if left_son pq tmp_ind ≠ -1 then [left_son pq tmp_ind] else []) ++
    (if right_son pq tmp_ind ≠ -1 then [right_son pq tmp_ind] else []) ++
    (if tmp_ind = (sift_down_pick pq tmp_ind).2 then []
      else [tmp_ind, tmp_ind, (sift_down_pick pq tmp_ind).2])
  else []

/-- Indices of the array accesses of the `while` loop of `pop_pq`, with the iteration budget of
`sift_down`. -/
def sift_down_accesses : Nat → priority_queue → Int → List Int
  | 0, pq, tmp_ind => sift_down_step_accesses pq tmp_ind
  | budget + 1, pq, tmp_ind =>
    match sift_down_step pq tmp_ind with
    | none => sift_down_step_accesses pq tmp_ind
    | some (pq1, ind1) =>
      sift_down_step_accesses pq tmp_ind ++ sift_down_accesses budget pq1 ind1

/-- Indices of all array accesses of `pop_pq`: the read of line 132, the store of line 133, the
read and the store of line 134, then the loop. -/
def pop_pq_accesses (pq : priority_queue) : List Int :=
  if pq.last_index = 0 then []
  else
    [0, pq.last_index, pq.last_index - 1, 0] ++
      sift_down_accesses (pop_move pq).last_index.toNat (pop_move pq) 0

/-- An index lies inside a block of `n` slots. -/
def in_block (n : Int) (i : Int) : Prop := 0 ≤ i ∧ i < n

instance (n i : Int) : Decidable (in_block n i) := by
  unfold in_block; infer_instance

/-- A full fixed-size heap of capacity 1, the heap after `push_pq(3)` on
`init_fixed_size_priority_queue(1, min_cmp)`. -/
def sample_one : priority_queue :=
  { n := 1, arr := [3], last_index := 1, resize_if_needed := 0, cmp := min_cmp }

/-! Section: Further vocabulary -/

/-- The successive distinct capacities `n` seen while pushing a list of elements: the capacity
before the first push, then each new capacity after a push that changed it. -/
def capacities : List Int → priority_queue → List Int
  | [], pq => [pq.n]
  | v :: vs, pq =>
    match push_pq pq v with
    | Outcome.ret r => if r.n = pq.n then capacities vs r else pq.n :: capacities vs r
    | _ => [pq.n]

/-- A call of one of the four functions that operate on an existing heap. -/
inductive Call where
  | push (v : Int)
  | pop
  | top
  | empty

/-- One call: the value it returns (for `top_pq` and `empty_pq`) and the heap it leaves.
The functions `top_pq` and `empty_pq` contain no store, so they leave the heap they were given. -/
def call : Call → priority_queue → Outcome (Option Int × priority_queue)
  | Call.push v, pq =>
    match push_pq pq v with
    | Outcome.ret r => Outcome.ret (none, r)
    | Outcome.crash s => Outcome.crash s
    | Outcome.out_of_budget => Outcome.out_of_budget
  | Call.pop, pq =>
    match pop_pq pq with
    | Outcome.ret r => Outcome.ret (none, r)
    | Outcome.crash s => Outcome.crash s
    | Outcome.out_of_budget => Outcome.out_of_budget
  | Call.top, pq =>
    match top_pq pq with
    | Outcome.ret v => Outcome.ret (some v, pq)
    | Outcome.crash s => Outcome.crash s
    | Outcome.out_of_budget => Outcome.out_of_budget
  | Call.empty, pq => Outcome.ret (some (empty_pq pq), pq)

/-- A min-heap with seven live elements whose two sons of the root tie; after the move of
`pop_pq` its live slots are `[9, 2, 2, 3, 4, 5]`. -/
def sample_tie : priority_queue :=
  { n := 8, arr := [1, 2, 2, 3, 4, 5, 9, 0], last_index := 7, resize_if_needed := 0,
    cmp := min_cmp }

/-- A comparator that signals `a < b` with the non-zero value 2 instead of 1. -/
def cmp_two (a b : Int) : Int := if a < b then 2 else 0

/-- The index reached from slot `i` by `m` steps to the father, each step `(i - 1) / 2`. -/
def ancestor : Nat → Int → Int
  | 0, i => i
  | m + 1, i => (ancestor m i - 1) / 2

theorem wr_length (arr : List Int) (i v : Int) : (wr arr i v).length = arr.length := by
  unfold wr; split <;> simp

theorem rd_wr_eq (arr : List Int) (i v : Int) (h0 : 0 ≤ i) (h1 : i < arr.length) :
    rd (wr arr i v) i = v := by
  have h2 : i.toNat < arr.length := by omega
  simp [rd, wr, h0, List.getD_eq_getElem?_getD, List.getElem?_set, h2]

theorem rd_wr_ne (arr : List Int) (i j v : Int) (h : i ≠ j) :
    rd (wr arr i v) j = rd arr j := by
  unfold rd wr
  by_cases hj : 0 ≤ j <;> by_cases hi : 0 ≤ i <;> simp [hi, hj]
  have h2 : i.toNat ≠ j.toNat := by omega
  simp [List.getD_eq_getElem?_getD, List.getElem?_set, h2]

theorem rd_swap_left (arr : List Int) (i j : Int) (hi : 0 ≤ i) (hil : i < arr.length) :
    rd (wr (wr arr i (rd arr j)) j (rd arr i)) i = rd arr j := by
  by_cases h : j = i
  · subst h; rw [rd_wr_eq _ _ _ hi (by rw [wr_length]; exact hil)]
  · rw [rd_wr_ne _ _ _ _ h, rd_wr_eq _ _ _ hi hil]

theorem rd_swap_right (arr : List Int) (i j : Int) (hj : 0 ≤ j) (hjl : j < arr.length) :
    rd (wr (wr arr i (rd arr j)) j (rd arr i)) j = rd arr i := by
  rw [rd_wr_eq _ _ _ hj (by rw [wr_length]; exact hjl)]

theorem rd_swap_other (arr : List Int) (i j k : Int) (hi : k ≠ i) (hj : k ≠ j) :
    rd (wr (wr arr i (rd arr j)) j (rd arr i)) k = rd arr k := by
  rw [rd_wr_ne _ _ _ _ (Ne.symm hj), rd_wr_ne _ _ _ _ (Ne.symm hi)]

theorem take_eq_map_rd (arr : List Int) (m : Nat) (h : m ≤ arr.length) :
    arr.take m = (List.range m).map (fun (k : Nat) => rd arr (k : Int)) := by
  apply List.ext_getElem
  · simp [h]
  · intro k h1 h2
    have hk : k < m := by simpa using h2
    have hk2 : k < arr.length := by omega
    simp [rd, List.getD_eq_getElem?_getD, List.getElem?_eq_getElem hk2]

/-! Section: The growth formula -/

theorem ceil_1_5_eq_ceil (n : Int) : ceil_1_5 n = ⌈(n : ℚ) * (3 / 2)⌉ := by
  symm
  rw [Int.ceil_eq_iff]
  unfold ceil_1_5
  obtain ⟨k, hk⟩ : ∃ k, n = 2 * k ∨ n = 2 * k + 1 := ⟨n / 2, by omega⟩
  rcases hk with rfl | rfl
  · have e : (3 * (2 * k) + 1) / 2 = 3 * k := by omega
    rw [e]
    push_cast
    constructor <;> linarith
  · have e : (3 * (2 * k + 1) + 1) / 2 = 3 * k + 2 := by omega
    rw [e]
    push_cast
    constructor <;> linarith

theorem map_swap_range_perm (a b m : Nat) (ha : a < m) (hb : b < m) :
    ((List.range m).map (Equiv.swap a b)).Perm (List.range m) := by
  rw [List.perm_ext_iff_of_nodup ((List.nodup_range m).map (Equiv.swap a b).injective)
    (List.nodup_range m)]
  intro k
  simp only [List.mem_map, List.mem_range]
  constructor
  · rintro ⟨x, hx, rfl⟩
    rw [Equiv.swap_apply_def]
    split_ifs <;> omega
  · intro hk
    refine ⟨Equiv.swap a b k, ?_, by simp⟩
    rw [Equiv.swap_apply_def]
    split_ifs <;> omega

theorem take_swap_perm (arr : List Int) (i j : Int) (m : Nat)
    (hi0 : 0 ≤ i) (him : i < m) (hj0 : 0 ≤ j) (hjm : j < m) (hm : m ≤ arr.length) :
    ((wr (wr arr i (rd arr j)) j (rd arr i)).take m).Perm (arr.take m) := by
  rw [take_eq_map_rd _ m (by rw [wr_length, wr_length]; exact hm), take_eq_map_rd _ m hm]
  have h1 : (List.range m).map (fun (k : Nat) => rd (wr (wr arr i (rd arr j)) j (rd arr i)) (k : Int))
      = ((List.range m).map (Equiv.swap i.toNat j.toNat)).map (fun (k : Nat) => rd arr (k : Int)) := by
    rw [List.map_map]
    apply List.map_congr_left
    intro k _
    simp only [Function.comp]
    rw [Equiv.swap_apply_def]
    by_cases hkj : (k : Int) = j
    · have : k = j.toNat := by omega
      rw [hkj, rd_swap_right _ _ _ hj0 (by omega)]
      by_cases h2 : k = i.toNat
      · rw [if_pos h2]
        congr 1
        omega
      · rw [if_neg h2, if_pos this, Int.toNat_of_nonneg hi0]
    · by_cases hki : (k : Int) = i
      · have : k = i.toNat := by omega
        rw [hki, rd_swap_left _ _ _ hi0 (by omega)]
        rw [if_pos this, Int.toNat_of_nonneg hj0]
      · rw [rd_swap_other _ _ _ _ hki hkj]
        rw [if_neg (by omega), if_neg (by omega)]
  rw [h1]
  exact (map_swap_range_perm _ _ m (by omega) (by omega)).map _

/-! Section: The sift-up loop -/

theorem father_pos (pq : priority_queue) (i : Int) (h : 0 < i) : father pq i = (i - 1) / 2 := by
  unfold father
  rw [if_neg (by omega), Int.tdiv_eq_ediv (by omega) (by omega)]

theorem father_nonpos (pq : priority_queue) (i : Int) (h : i ≤ 0) : father pq i = -1 := by
  unfold father
  rw [if_pos h]

theorem sift_up_step_some (pq pq1 : priority_queue) (i i1 : Int)
    (h : sift_up_step pq i = some (pq1, i1)) :
    0 < i ∧ i1 = (i - 1) / 2 ∧ pq.cmp (rd pq.arr i) (rd pq.arr i1) = 1 ∧
      pq1 = { pq with arr := wr (wr pq.arr i1 (rd pq.arr i)) i (rd pq.arr i1) } := by
  unfold sift_up_step at h
  split_ifs at h with hc
  have hi : 0 < i := by
    by_contra hn
    exact hc.1 (father_nonpos pq i (by omega))
  rw [father_pos pq i hi] at h hc
  simp only [Option.some.injEq, Prod.mk.injEq] at h
  exact ⟨hi, h.2.symm, h.2 ▸ hc.2, h.2 ▸ h.1.symm⟩

theorem sift_up_step_none (pq : priority_queue) (i : Int) (h : sift_up_step pq i = none) :
    i ≤ 0 ∨ pq.cmp (rd pq.arr i) (rd pq.arr ((i - 1) / 2)) ≠ 1 := by
  unfold sift_up_step at h
  split_ifs at h with hc
  by_cases hi : i ≤ 0
  · exact Or.inl hi
  · right
    rw [father_pos pq i (by omega)] at hc
    intro h1
    exact hc ⟨by omega, h1⟩

theorem sift_up_returns (budget : Nat) :
    ∀ (pq : priority_queue) (i : Int), i.toNat ≤ budget → ∃ r, sift_up budget pq i = some r := by
  induction budget with
  | zero =>
    intro pq i hb
    unfold sift_up
    cases hs : sift_up_step pq i with
    | none => exact ⟨pq, rfl⟩
    | some p =>
      obtain ⟨pq1, i1⟩ := p
      have := (sift_up_step_some pq pq1 i i1 hs).1
      omega
  | succ b ih =>
    intro pq i hb
    unfold sift_up
    cases hs : sift_up_step pq i with
    | none => exact ⟨pq, rfl⟩
    | some p =>
      obtain ⟨pq1, i1⟩ := p
      obtain ⟨h1, h2, -, -⟩ := sift_up_step_some pq pq1 i i1 hs
      exact ih pq1 i1 (by omega)

theorem sift_up_induct (P : priority_queue → Int → Prop)
    (hstep : ∀ pq i pq1 i1, P pq i → sift_up_step pq i = some (pq1, i1) → P pq1 i1)
    (budget : Nat) :
    ∀ (pq r : priority_queue) (i : Int), P pq i → sift_up budget pq i = some r →
      ∃ j, P r j ∧ sift_up_step r j = none := by
  induction budget with
  | zero =>
    intro pq r i hP h
    unfold sift_up at h
    cases hs : sift_up_step pq i with
    | none =>
      rw [hs] at h
      simp only [Option.some.injEq] at h
      exact ⟨i, h ▸ hP, h ▸ hs⟩
    | some p => rw [hs] at h; simp at h
  | succ b ih =>
    intro pq r i hP h
    unfold sift_up at h
    cases hs : sift_up_step pq i with
    | none =>
      rw [hs] at h
      simp only [Option.some.injEq] at h
      exact ⟨i, h ▸ hP, h ▸ hs⟩
    | some p =>
      obtain ⟨pq1, i1⟩ := p
      rw [hs] at h
      exact ih pq1 r i1 (hstep pq i pq1 i1 hP hs) h

/-! Section: The sift-down loop -/

theorem sift_down_pick_val (pq : priority_queue) (i : Int) :
    (sift_down_pick pq i).1 = rd pq.arr (sift_down_pick pq i).2 := by
  unfold sift_down_pick
  simp only
  split_ifs <;> rfl

theorem sift_down_pick_ind (pq : priority_queue) (i : Int) :
    (sift_down_pick pq i).2 = i ∨
      (((sift_down_pick pq i).2 = 2 * i + 1 ∨ (sift_down_pick pq i).2 = 2 * i + 2) ∧
        (sift_down_pick pq i).2 < pq.last_index) := by
  unfold sift_down_pick left_son right_son
  simp only
  split_ifs <;> simp_all <;> omega

theorem sift_down_step_some (pq pq1 : priority_queue) (i i1 : Int)
    (h : sift_down_step pq i = some (pq1, i1)) :
    i1 = (sift_down_pick pq i).2 ∧ (i1 = 2 * i + 1 ∨ i1 = 2 * i + 2) ∧ i1 < pq.last_index ∧
      pq1 = { pq with arr := wr (wr pq.arr i (rd pq.arr i1)) i1 (rd pq.arr i) } := by
  unfold sift_down_step at h
  split_ifs at h with hc hb
  simp only [Option.some.injEq, Prod.mk.injEq] at h
  obtain ⟨h1, h2⟩ := h
  rw [sift_down_pick_val, h2] at h1
  rcases sift_down_pick_ind pq i with h3 | h3
  · exact absurd h3.symm hb
  · rw [h2] at h3
    exact ⟨h2.symm, h3.1, h3.2, h1.symm⟩

theorem sift_down_step_none (pq : priority_queue) (i : Int)
    (h : sift_down_step pq i = none) :
    (sift_down_pick pq i).2 = i := by
  unfold sift_down_step at h
  split_ifs at h with hc hb
  · exact hb.symm
  · unfold sift_down_pick
    simp only
    rw [not_or, not_not, not_not] at hc
    simp [hc.1, hc.2]

theorem sift_down_returns (budget : Nat) :
    ∀ (pq : priority_queue) (i : Int), 0 ≤ i → (pq.last_index - i).toNat ≤ budget →
      ∃ r, sift_down budget pq i = some r := by
  induction budget with
  | zero =>
    intro pq i h0 hb
    unfold sift_down
    cases hs : sift_down_step pq i with
    | none => exact ⟨pq, rfl⟩
    | some p =>
      obtain ⟨pq1, i1⟩ := p
      have := sift_down_step_some pq pq1 i i1 hs
      omega
  | succ b ih =>
    intro pq i h0 hb
    unfold sift_down
    cases hs : sift_down_step pq i with
    | none => exact ⟨pq, rfl⟩
    | some p =>
      obtain ⟨pq1, i1⟩ := p
      obtain ⟨-, h2, h3, h4⟩ := sift_down_step_some pq pq1 i i1 hs
      have hl : pq1.last_index = pq.last_index := by rw [h4]
      exact ih pq1 i1 (by omega) (by omega)

theorem sift_down_induct (P : priority_queue → Int → Prop)
    (hstep : ∀ pq i pq1 i1, P pq i → sift_down_step pq i = some (pq1, i1) → P pq1 i1)
    (budget : Nat) :
    ∀ (pq r : priority_queue) (i : Int), P pq i → sift_down budget pq i = some r →
      ∃ j, P r j ∧ sift_down_step r j = none := by
  induction budget with
  | zero =>
    intro pq r i hP h
    unfold sift_down at h
    cases hs : sift_down_step pq i with
    | none =>
      rw [hs] at h
      simp only [Option.some.injEq] at h
      exact ⟨i, h ▸ hP, h ▸ hs⟩
    | some p => rw [hs] at h; simp at h
  | succ b ih =>
    intro pq r i hP h
    unfold sift_down at h
    cases hs : sift_down_step pq i with
    | none =>
      rw [hs] at h
      simp only [Option.some.injEq] at h
      exact ⟨i, h ▸ hP, h ▸ hs⟩
    | some p =>
      obtain ⟨pq1, i1⟩ := p
      rw [hs] at h
      exact ih pq1 r i1 (hstep pq i pq1 i1 hP hs) h

theorem sift_down_pick_best (pq : priority_queue) (i : Int) (ho : priority_order pq.cmp)
    (h0 : 0 ≤ i) :
    ((sift_down_pick pq i).2 ≠ i →
        pq.cmp (rd pq.arr i) (rd pq.arr (sift_down_pick pq i).2) ≠ 1) ∧
      ∀ s, (s = 2 * i + 1 ∨ s = 2 * i + 2) → s < pq.last_index →
        pq.cmp (rd pq.arr s) (rd pq.arr (sift_down_pick pq i).2) ≠ 1 := by
  have irr : ∀ a, pq.cmp a a ≠ 1 := fun a h => ho.asymm a a h h
  have nz : ∀ a b, pq.cmp a b ≠ 0 → pq.cmp b a ≠ 1 := fun a b h =>
    ho.asymm a b ((ho.bool a b).resolve_left h)
  have z : ∀ a b, pq.cmp a b = 0 → pq.cmp a b ≠ 1 := fun a b h => by rw [h]; decide
  have e1 : ∀ s, s = 2 * i + 1 → s = i * 2 + 1 := fun s h => by omega
  have e2 : ∀ s, s = 2 * i + 2 → s = i * 2 + 2 := fun s h => by omega
  have n1 : i * 2 + 1 ≠ -1 := by omega
  have n2 : i * 2 + 2 ≠ -1 := by omega
  by_cases hr : i * 2 + 2 < pq.last_index
  · have hl : i * 2 + 1 < pq.last_index := by omega
    have hls : left_son pq i = i * 2 + 1 := by
      unfold left_son; rw [if_neg (by omega)]
    have hrs : right_son pq i = i * 2 + 2 := by
      unfold right_son; rw [if_neg (by omega)]
    by_cases c1 : pq.cmp (rd pq.arr i) (rd pq.arr (i * 2 + 1)) = 0
    · by_cases c2 : pq.cmp (rd pq.arr (i * 2 + 1)) (rd pq.arr (i * 2 + 2)) = 0
      · have hp : sift_down_pick pq i = (rd pq.arr (i * 2 + 2), i * 2 + 2) := by
          simp [sift_down_pick, hls, hrs, n1, n2, c1, c2]
        rw [hp]
        refine ⟨fun _ => ho.trans _ _ _ (z _ _ c2) (z _ _ c1), ?_⟩
        rintro s (hs | hs) -
        · rw [e1 s hs]; exact z _ _ c2
        · rw [e2 s hs]; exact irr _
      · have hp : sift_down_pick pq i = (rd pq.arr (i * 2 + 1), i * 2 + 1) := by
          simp [sift_down_pick, hls, hrs, n1, n2, c1, c2]
        rw [hp]
        refine ⟨fun _ => z _ _ c1, ?_⟩
        rintro s (hs | hs) -
        · rw [e1 s hs]; exact irr _
        · rw [e2 s hs]; exact nz _ _ c2
    · by_cases c2 : pq.cmp (rd pq.arr i) (rd pq.arr (i * 2 + 2)) = 0
      · have hp : sift_down_pick pq i = (rd pq.arr (i * 2 + 2), i * 2 + 2) := by
          simp [sift_down_pick, hls, hrs, n1, n2, c1, c2]
        rw [hp]
        refine ⟨fun _ => z _ _ c2, ?_⟩
        rintro s (hs | hs) -
        · rw [e1 s hs]; exact ho.trans _ _ _ (z _ _ c2) (nz _ _ c1)
        · rw [e2 s hs]; exact irr _
      · have hp : sift_down_pick pq i = (rd pq.arr i, i) := by
          simp [sift_down_pick, hls, hrs, n1, n2, c1, c2]
        rw [hp]
        refine ⟨fun h => absurd rfl h, ?_⟩
        rintro s (hs | hs) -
        · rw [e1 s hs]; exact nz _ _ c1
        · rw [e2 s hs]; exact nz _ _ c2
  · have hrs : right_son pq i = -1 := by
      unfold right_son; rw [if_pos (by omega)]
    by_cases hl : i * 2 + 1 < pq.last_index
    · have hls : left_son pq i = i * 2 + 1 := by
        unfold left_son; rw [if_neg (by omega)]
      by_cases c1 : pq.cmp (rd pq.arr i) (rd pq.arr (i * 2 + 1)) = 0
      · have hp : sift_down_pick pq i = (rd pq.arr (i * 2 + 1), i * 2 + 1) := by
          simp [sift_down_pick, hls, hrs, n1, c1]
        rw [hp]
        refine ⟨fun _ => z _ _ c1, ?_⟩
        rintro s (hs | hs) h
        · rw [e1 s hs]; exact irr _
        · omega
      · have hp : sift_down_pick pq i = (rd pq.arr i, i) := by
          simp [sift_down_pick, hls, hrs, n1, c1]
        rw [hp]
        refine ⟨fun h => absurd rfl h, ?_⟩
        rintro s (hs | hs) h
        · rw [e1 s hs]; exact nz _ _ c1
        · omega
    · have hls : left_son pq i = -1 := by
        unfold left_son; rw [if_pos (by omega)]
      have hp : sift_down_pick pq i = (rd pq.arr i, i) := by
        simp [sift_down_pick, hls, hrs]
      rw [hp]
      refine ⟨fun h => absurd rfl h, ?_⟩
      rintro s (hs | hs) h <;> omega

/-! Section: Heap order -/

theorem heap_order_iff (cmp : Int → Int → Int) (arr : List Int) (m : Int) :
    heap_order cmp arr m ↔
      ∀ i : Int, 0 < i → i < m → cmp (rd arr i) (rd arr ((i - 1) / 2)) ≠ 1 := by
  unfold heap_order
  constructor
  · intro h i h0 hm
    have h1 := h i.toNat (by rw [List.mem_range]; omega) (by omega)
    rwa [Int.toNat_of_nonneg (by omega)] at h1
  · intro h i hi h0
    rw [List.mem_range] at hi
    exact h i (by omega) (by omega)

theorem up_inv_swap (cmp : Int → Int → Int) (ho : priority_order cmp) (arr : List Int)
    (m k : Int) (hk : 0 < k) (hkm : k < m) (hm : m ≤ arr.length)
    (hinv : up_inv cmp arr m k) (hc : cmp (rd arr k) (rd arr ((k - 1) / 2)) = 1) :
    up_inv cmp (wr (wr arr ((k - 1) / 2) (rd arr k)) k (rd arr ((k - 1) / 2))) m
      ((k - 1) / 2) := by
  have bp := rd_swap_left arr ((k - 1) / 2) k (by omega) (by omega)
  have bk := rd_swap_right arr ((k - 1) / 2) k (by omega) (by omega)
  have bo := rd_swap_other arr ((k - 1) / 2) k
  constructor
  · intro i hi0 him hip
    by_cases hik : i = k
    · subst hik
      rw [bk, bp]
      exact ho.asymm _ _ hc
    · rw [bo i hip hik]
      by_cases hqk : (i - 1) / 2 = k
      · rw [hqk, bk]
        exact hinv.2 i hi0 him hqk hk
      · by_cases hqp : (i - 1) / 2 = (k - 1) / 2
        · rw [hqp, bp]
          have h1 := hinv.1 i hi0 him hik
          rw [hqp] at h1
          exact ho.trans _ _ _ (ho.asymm _ _ hc) h1
        · rw [bo _ hqp hqk]
          exact hinv.1 i hi0 him hik
  · intro i hi0 him hq hp
    rw [bo ((((k - 1) / 2) - 1) / 2) (by omega) (by omega)]
    have h1 := hinv.1 ((k - 1) / 2) hp (by omega) (by omega)
    by_cases hik : i = k
    · rw [hik, bk]
      exact h1
    · rw [bo i (by omega) hik]
      have h2 := hinv.1 i hi0 him hik
      rw [hq] at h2
      exact ho.trans _ _ _ h1 h2

theorem up_inv_exit (cmp : Int → Int → Int) (arr : List Int) (m k : Int)
    (hinv : up_inv cmp arr m k)
    (hx : k ≤ 0 ∨ cmp (rd arr k) (rd arr ((k - 1) / 2)) ≠ 1) :
    heap_order cmp arr m := by
  rw [heap_order_iff]
  intro i hi0 him
  by_cases hik : i = k
  · subst hik
    rcases hx with hx | hx
    · omega
    · exact hx
  · exact hinv.1 i hi0 him hik

theorem down_inv_swap (cmp : Int → Int → Int) (arr : List Int)
    (m k c : Int) (hk : 0 ≤ k) (hc : c = 2 * k + 1 ∨ c = 2 * k + 2) (hcm : c < m)
    (hm : m ≤ arr.length) (hinv : down_inv cmp arr m k)
    (h1 : cmp (rd arr k) (rd arr c) ≠ 1)
    (h2 : ∀ s, (s = 2 * k + 1 ∨ s = 2 * k + 2) → s < m → cmp (rd arr s) (rd arr c) ≠ 1) :
    down_inv cmp (wr (wr arr k (rd arr c)) c (rd arr k)) m c := by
  have bk := rd_swap_left arr k c hk (by omega)
  have bc := rd_swap_right arr k c (by omega) (by omega)
  have bo := rd_swap_other arr k c
  constructor
  · intro i hi0 him hq
    by_cases hqk : (i - 1) / 2 = k
    · rw [hqk, bk]
      by_cases hic : i = c
      · rw [hic, bc]
        exact h1
      · rw [bo i (by omega) hic]
        exact h2 i (by omega) him
    · rw [bo _ hqk hq]
      by_cases hik : i = k
      · rw [hik, bk]
        exact hinv.2 c (by omega) hcm (by omega) (by omega)
      · rw [bo i hik (by omega)]
        exact hinv.1 i hi0 him hqk
  · intro i hi0 him hq hc0
    have e : (c - 1) / 2 = k := by omega
    rw [e, bk, bo i (by omega) (by omega)]
    have h3 := hinv.1 i hi0 him (by omega)
    rwa [hq] at h3

theorem down_inv_exit (cmp : Int → Int → Int) (arr : List Int) (m k : Int)
    (hinv : down_inv cmp arr m k)
    (hx : ∀ s, (s = 2 * k + 1 ∨ s = 2 * k + 2) → s < m → cmp (rd arr s) (rd arr k) ≠ 1) :
    heap_order cmp arr m := by
  rw [heap_order_iff]
  intro i hi0 him
  by_cases hq : (i - 1) / 2 = k
  · rw [hq]
    exact hx i (by omega) him
  · exact hinv.1 i hi0 him hq

theorem take_set_ge (arr : List Int) (k j : Nat) (v : Int) (h : k ≤ j) :
    (arr.set j v).take k = arr.take k := by
  rw [List.set_take, List.set_eq_of_length_le]
  rw [List.length_take]
  omega

theorem take_wr_ge (arr : List Int) (k : Nat) (j v : Int) (h : (k : Int) ≤ j) :
    (wr arr j v).take k = arr.take k := by
  unfold wr
  rw [if_pos (by omega)]
  exact take_set_ge arr k j.toNat v (by omega)

theorem take_succ_wr (arr : List Int) (k : Nat) (v : Int) (h : k < arr.length) :
    (wr arr k v).take (k + 1) = arr.take k ++ [v] := by
  unfold wr
  rw [if_pos (by omega), Int.toNat_ofNat, List.take_succ, take_set_ge arr k k v (le_refl k),
    List.getElem?_set_self h]
  rfl

theorem take_succ_rd (arr : List Int) (k : Nat) (h : k < arr.length) :
    arr.take (k + 1) = arr.take k ++ [rd arr k] := by
  rw [List.take_succ, List.getElem?_eq_getElem h]
  simp [rd, List.getD_eq_getElem?_getD, List.getElem?_eq_getElem h]

/-! Section: `push_pq` -/

theorem push_store_spec (pq : priority_queue) (v : Int) (h0 : 0 ≤ pq.last_index)
    (hl : pq.last_index < pq.arr.length) :
    ∃ r, push_store pq v = Outcome.ret r ∧ r.n = pq.n ∧ r.last_index = pq.last_index + 1 ∧
      r.resize_if_needed = pq.resize_if_needed ∧ r.cmp = pq.cmp ∧
      r.arr.length = pq.arr.length ∧ (live r).Perm (v :: live pq) ∧
      (priority_order pq.cmp → heap_ok pq → heap_ok r) := by
  obtain ⟨L, hL⟩ : ∃ L : Nat, pq.last_index = (L : Int) := ⟨pq.last_index.toNat, by omega⟩
  have hlen : L < pq.arr.length := by omega
  obtain ⟨r, hr⟩ := sift_up_returns pq.last_index.toNat
    { pq with arr := wr pq.arr pq.last_index v } pq.last_index (le_refl _)
  let P : priority_queue → Int → Prop := fun q i =>
    q.n = pq.n ∧ q.last_index = pq.last_index ∧ q.resize_if_needed = pq.resize_if_needed ∧
    q.cmp = pq.cmp ∧ q.arr.length = pq.arr.length ∧ 0 ≤ i ∧ i ≤ pq.last_index ∧
    (q.arr.take (L + 1)).Perm (v :: pq.arr.take L) ∧
    (priority_order pq.cmp → heap_ok pq → up_inv pq.cmp q.arr (pq.last_index + 1) i)
  have hP0 : P { pq with arr := wr pq.arr pq.last_index v } pq.last_index := by
    refine ⟨rfl, rfl, rfl, rfl, wr_length _ _ _, h0, le_refl _, ?_, ?_⟩
    · show ((wr pq.arr pq.last_index v).take (L + 1)).Perm (v :: pq.arr.take L)
      rw [hL, take_succ_wr pq.arr L v hlen]
      exact List.perm_append_singleton v _
    · intro _ hh
      have hh2 := (heap_order_iff _ _ _).1 hh
      constructor
      · intro i hi0 him hik
        show pq.cmp (rd (wr pq.arr pq.last_index v) i)
          (rd (wr pq.arr pq.last_index v) ((i - 1) / 2)) ≠ 1
        rw [rd_wr_ne _ _ _ _ (Ne.symm hik), rd_wr_ne _ _ _ _ (by omega)]
        exact hh2 i hi0 (by omega)
      · intro i hi0 him hq
        omega
  have hstep : ∀ q i q1 i1, P q i → sift_up_step q i = some (q1, i1) → P q1 i1 := by
    intro q i q1 i1 hP hs
    obtain ⟨hn, hli, hrs, hcmp, hlen1, hi0, hiL, hperm, hheap⟩ := hP
    obtain ⟨hpos, hi1, hc, hq1⟩ := sift_up_step_some q q1 i i1 hs
    subst hq1
    refine ⟨hn, hli, hrs, hcmp, ?_, by omega, by omega, ?_, ?_⟩
    · show (wr (wr q.arr i1 (rd q.arr i)) i (rd q.arr i1)).length = pq.arr.length
      rw [wr_length, wr_length, hlen1]
    · show ((wr (wr q.arr i1 (rd q.arr i)) i (rd q.arr i1)).take (L + 1)).Perm _
      refine (take_swap_perm q.arr i1 i (L + 1) (by omega) ?_ (by omega) ?_ (by omega)).trans
        hperm
      · push_cast; omega
      · push_cast; omega
    · intro ho hh
      show up_inv pq.cmp (wr (wr q.arr i1 (rd q.arr i)) i (rd q.arr i1)) (pq.last_index + 1) i1
      rw [hi1]
      rw [hi1, hcmp] at hc
      exact up_inv_swap pq.cmp ho q.arr (pq.last_index + 1) i hpos (by omega) (by omega)
        (hheap ho hh) hc
  obtain ⟨j, hPj, hnone⟩ := sift_up_induct P hstep _ _ r _ hP0 hr
  obtain ⟨hn, hli, hrs, hcmp, hlen1, hj0, hjL, hperm, hheap⟩ := hPj
  refine ⟨{ r with last_index := r.last_index + 1 }, ?_, hn, ?_, hrs, hcmp, hlen1, ?_, ?_⟩
  · unfold push_store
    rw [hr]
  · show r.last_index + 1 = pq.last_index + 1
    rw [hli]
  · show (r.arr.take (r.last_index + 1).toNat).Perm (v :: pq.arr.take pq.last_index.toNat)
    rw [hli, hL]
    exact hperm
  · intro ho hh
    show heap_order r.cmp r.arr (r.last_index + 1)
    rw [hli, hcmp]
    refine up_inv_exit pq.cmp r.arr _ j (hheap ho hh) ?_
    have := sift_up_step_none r j hnone
    rwa [hcmp] at this

/-! Section: `pop_pq` -/

theorem pop_move_perm (arr : List Int) (k : Nat) (hk : k < arr.length) :
    (rd arr 0 :: (wr (wr arr ((k : Int) + 1) 0) 0
      (rd (wr arr ((k : Int) + 1) 0) k)).take k).Perm (arr.take (k + 1)) := by
  rw [rd_wr_ne _ _ _ _ (by omega)]
  cases arr with
  | nil => simp at hk
  | cons a0 rest =>
    cases k with
    | zero => simp [rd]
    | succ j =>
      have hj : j < rest.length := by simpa using hk
      have e1 : rd (a0 :: rest) ((j + 1 : Nat) : Int) = rd rest (j : Int) := by
        have h1 : (0 : Int) ≤ ((j + 1 : Nat) : Int) := by omega
        have h2 : (0 : Int) ≤ (j : Int) := by omega
        have h3 : (((j + 1 : Nat) : Int)).toNat = j + 1 := by omega
        have h4 : ((j : Int)).toNat = j := by omega
        unfold rd
        rw [if_pos h1, if_pos h2, h3, h4]
        rfl
      have e2 : wr (wr (a0 :: rest) (((j + 1 : Nat) : Int) + 1) 0) 0 (rd rest (j : Int))
          = rd rest (j : Int) :: rest.set (j + 1) 0 := by
        have : (((j + 1 : Nat) : Int) + 1).toNat = j + 2 := by omega
        unfold wr
        rw [if_pos (by omega), if_pos (by omega), this]
        rfl
      rw [e1, e2, List.take_succ_cons, take_set_ge rest j (j + 1) 0 (by omega)]
      rw [List.take_succ_cons, take_succ_rd rest j hj]
      simp [rd]
      exact (List.perm_append_singleton _ _).symm

theorem pop_pq_spec (pq : priority_queue) (h0 : 0 < pq.last_index)
    (hl : pq.last_index ≤ pq.arr.length) :
    ∃ r, pop_pq pq = Outcome.ret r ∧ r.n = pq.n ∧ r.last_index = pq.last_index - 1 ∧
      r.resize_if_needed = pq.resize_if_needed ∧ r.cmp = pq.cmp ∧
      r.arr.length = pq.arr.length ∧ (rd pq.arr 0 :: live r).Perm (live pq) ∧
      (priority_order pq.cmp → heap_ok pq → heap_ok r) := by
  obtain ⟨k, hk⟩ : ∃ k : Nat, pq.last_index = (k : Int) + 1 :=
    ⟨(pq.last_index - 1).toNat, by omega⟩
  have hlen : k < pq.arr.length := by omega
  have hmv : (pop_move pq).last_index = pq.last_index - 1 := rfl
  obtain ⟨r, hr⟩ := sift_down_returns (pop_move pq).last_index.toNat (pop_move pq) 0
    (le_refl _) (by simp)
  let P : priority_queue → Int → Prop := fun q i =>
    q.n = pq.n ∧ q.last_index = pq.last_index - 1 ∧
    q.resize_if_needed = pq.resize_if_needed ∧
    q.cmp = pq.cmp ∧ q.arr.length = pq.arr.length ∧ 0 ≤ i ∧
    (rd pq.arr 0 :: q.arr.take k).Perm (pq.arr.take (k + 1)) ∧
    (priority_order pq.cmp → heap_ok pq → down_inv pq.cmp q.arr (pq.last_index - 1) i)
  have hP0 : P (pop_move pq) 0 := by
    refine ⟨rfl, rfl, rfl, rfl, ?_, le_refl _, ?_, ?_⟩
    · show (wr (wr pq.arr pq.last_index 0) 0 _).length = pq.arr.length
      rw [wr_length, wr_length]
    · show (rd pq.arr 0 :: (wr (wr pq.arr pq.last_index 0) 0
        (rd (wr pq.arr pq.last_index 0) (pq.last_index - 1))).take k).Perm _
      have e : pq.last_index - 1 = (k : Int) := by omega
      rw [e, hk]
      exact pop_move_perm pq.arr k hlen
    · intro _ hh
      have hh2 := (heap_order_iff _ _ _).1 hh
      constructor
      · intro i hi0 him hq
        show pq.cmp (rd (wr (wr pq.arr pq.last_index 0) 0 _) i)
          (rd (wr (wr pq.arr pq.last_index 0) 0 _) ((i - 1) / 2)) ≠ 1
        rw [rd_wr_ne _ _ _ _ (by omega), rd_wr_ne _ _ _ _ (by omega),
          rd_wr_ne _ _ _ _ (by omega), rd_wr_ne _ _ _ _ (by omega)]
        exact hh2 i hi0 (by omega)
      · intro i hi0 him hq hk0
        omega
  have hstep : ∀ q i q1 i1, P q i → sift_down_step q i = some (q1, i1) → P q1 i1 := by
    intro q i q1 i1 hP hs
    obtain ⟨hn, hli, hrs, hcmp, hlen1, hi0, hperm, hheap⟩ := hP
    obtain ⟨hpick, hi1, hlt, hq1⟩ := sift_down_step_some q q1 i i1 hs
    subst hq1
    refine ⟨hn, hli, hrs, hcmp, ?_, by omega, ?_, ?_⟩
    · show (wr (wr q.arr i (rd q.arr i1)) i1 (rd q.arr i)).length = pq.arr.length
      rw [wr_length, wr_length, hlen1]
    · show (rd pq.arr 0 :: (wr (wr q.arr i (rd q.arr i1)) i1 (rd q.arr i)).take k).Perm _
      exact ((take_swap_perm q.arr i i1 k hi0 (by omega) (by omega) (by omega)
        (by omega)).cons _).trans hperm
    · intro ho hh
      show down_inv pq.cmp (wr (wr q.arr i (rd q.arr i1)) i1 (rd q.arr i))
        (pq.last_index - 1) i1
      have hb := sift_down_pick_best q i (hcmp ▸ ho) hi0
      rw [← hpick, hcmp, hli] at hb
      exact down_inv_swap pq.cmp q.arr (pq.last_index - 1) i i1 hi0 hi1 (by omega) (by omega)
        (hheap ho hh) (hb.1 (by omega)) hb.2
  obtain ⟨j, hPj, hnone⟩ := sift_down_induct P hstep _ _ r _ hP0 hr
  obtain ⟨hn, hli, hrs, hcmp, hlen1, hj0, hperm, hheap⟩ := hPj
  refine ⟨r, ?_, hn, hli, hrs, hcmp, hlen1, ?_, ?_⟩
  · unfold pop_pq
    rw [if_neg (by omega), hr]
  · show (rd pq.arr 0 :: r.arr.take r.last_index.toNat).Perm (pq.arr.take pq.last_index.toNat)
    have e1 : r.last_index.toNat = k := by omega
    have e2 : pq.last_index.toNat = k + 1 := by omega
    rw [e1, e2]
    exact hperm
  · intro ho hh
    show heap_order r.cmp r.arr r.last_index
    rw [hli, hcmp]
    refine down_inv_exit pq.cmp r.arr _ j (hheap ho hh) ?_
    have hb := sift_down_pick_best r j (hcmp ▸ ho) hj0
    rw [sift_down_step_none r j hnone, hcmp, hli] at hb
    exact hb.2

/-! Section: Whole-function facts -/

theorem priority_order_min : priority_order min_cmp := by
  refine ⟨?_, ?_, ?_⟩
  · intro a b; unfold min_cmp; split_ifs <;> simp
  · intro a b; unfold min_cmp; split_ifs <;> simp; omega
  · intro a b c; unfold min_cmp; split_ifs <;> simp; omega

theorem priority_order_max : priority_order max_cmp := by
  refine ⟨?_, ?_, ?_⟩
  · intro a b; unfold max_cmp; split_ifs <;> simp
  · intro a b; unfold max_cmp; split_ifs <;> simp; omega
  · intro a b c; unfold max_cmp; split_ifs <;> simp; omega

theorem rd_realloc (arr : List Int) (c i : Int) (hc : (arr.length : Int) ≤ c) (hi0 : 0 ≤ i)
    (hi : i < arr.length) : rd (realloc arr c) i = rd arr i := by
  unfold rd realloc
  rw [if_pos hi0, if_pos hi0, List.take_of_length_le (by omega)]
  rw [List.getD_eq_getElem?_getD, List.getD_eq_getElem?_getD,
    List.getElem?_append_left (by omega)]

theorem realloc_length (arr : List Int) (c : Int) (hc : (arr.length : Int) ≤ c) :
    ((realloc arr c).length : Int) = c := by
  unfold realloc
  rw [List.take_of_length_le (by omega)]
  simp
  omega

theorem take_realloc (arr : List Int) (c : Int) (hc : (arr.length : Int) ≤ c) (k : Nat)
    (hk : k ≤ arr.length) : (realloc arr c).take k = arr.take k := by
  unfold realloc
  have e : arr.take c.toNat = arr := List.take_of_length_le (by omega)
  rw [e, List.take_append_of_le_length hk]

theorem push_pq_spec (pq : priority_queue) (v : Int) (hw : wf pq)
    (hroom : pq.last_index < pq.n ∨ (pq.resize_if_needed ≠ 0 ∧ 1 ≤ pq.n)) :
    ∃ r, push_pq pq v = Outcome.ret r ∧ wf r ∧ r.last_index = pq.last_index + 1 ∧
      r.resize_if_needed = pq.resize_if_needed ∧ r.cmp = pq.cmp ∧
      r.n = (if pq.last_index = pq.n then ceil_1_5 pq.n else pq.n) ∧
      (live r).Perm (v :: live pq) ∧ (priority_order pq.cmp → heap_ok pq → heap_ok r) := by
  obtain ⟨hlen, hl0, hln⟩ := hw
  by_cases hfull : pq.last_index = pq.n
  · have hg : pq.resize_if_needed ≠ 0 ∧ 1 ≤ pq.n := by
      rcases hroom with h | h
      · omega
      · exact h
    have hc : pq.n < ceil_1_5 pq.n := by unfold ceil_1_5; omega
    have hlen2 := realloc_length pq.arr (ceil_1_5 pq.n) (by omega)
    obtain ⟨r, h1, h2, h3, h4, h5, h6, h7, h8⟩ := push_store_spec
      { pq with n := ceil_1_5 pq.n, arr := realloc pq.arr (ceil_1_5 pq.n) } v hl0
      (by show pq.last_index < ((realloc pq.arr (ceil_1_5 pq.n)).length : Int); omega)
    have h2a : r.n = ceil_1_5 pq.n := h2
    have h3a : r.last_index = pq.last_index + 1 := h3
    have h6a : r.arr.length = (realloc pq.arr (ceil_1_5 pq.n)).length := h6
    refine ⟨r, ?_, ⟨?_, ?_, ?_⟩, h3, h4, h5, ?_, ?_, ?_⟩
    · unfold push_pq
      rw [if_pos ⟨hfull, hg.1⟩]
      exact h1
    · rw [h6a, h2a]; exact hlen2
    · omega
    · omega
    · rw [if_pos hfull]; exact h2
    · refine h7.trans (List.Perm.cons _ ?_)
      show ((realloc pq.arr (ceil_1_5 pq.n)).take pq.last_index.toNat).Perm _
      rw [take_realloc pq.arr _ (by omega) _ (by omega)]
      exact List.Perm.refl _
    · intro ho hh
      refine h8 ho ?_
      show heap_order pq.cmp (realloc pq.arr (ceil_1_5 pq.n)) pq.last_index
      rw [heap_order_iff]
      intro i hi0 him
      rw [rd_realloc _ _ _ (by omega) (by omega) (by omega),
        rd_realloc _ _ _ (by omega) (by omega) (by omega)]
      exact (heap_order_iff _ _ _).1 hh i hi0 him
  · obtain ⟨r, h1, h2, h3, h4, h5, h6, h7, h8⟩ := push_store_spec pq v hl0 (by omega)
    refine ⟨r, ?_, ⟨?_, ?_, ?_⟩, h3, h4, h5, ?_, h7, h8⟩
    · unfold push_pq
      rw [if_neg (fun h => hfull h.1), if_neg (fun h => hfull h.1)]
      exact h1
    · rw [h6, h2]; exact hlen
    · omega
    · rw [h3, h2]; omega
    · rw [if_neg hfull]; exact h2

theorem sift_up_frame (budget : Nat) (pq r : priority_queue) (i : Int)
    (h : sift_up budget pq i = some r) :
    r.n = pq.n ∧ r.last_index = pq.last_index ∧ r.resize_if_needed = pq.resize_if_needed ∧
      r.cmp = pq.cmp := by
  obtain ⟨j, hj, -⟩ := sift_up_induct
    (fun q _ => q.n = pq.n ∧ q.last_index = pq.last_index ∧
      q.resize_if_needed = pq.resize_if_needed ∧ q.cmp = pq.cmp)
    (fun q i q1 i1 hP hs => by
      obtain ⟨-, -, -, hq⟩ := sift_up_step_some q q1 i i1 hs
      subst hq
      exact hP) budget pq r i ⟨rfl, rfl, rfl, rfl⟩ h
  exact hj

theorem sift_down_frame (budget : Nat) (pq r : priority_queue) (i : Int)
    (h : sift_down budget pq i = some r) :
    r.n = pq.n ∧ r.last_index = pq.last_index ∧ r.resize_if_needed = pq.resize_if_needed ∧
      r.cmp = pq.cmp := by
  obtain ⟨j, hj, -⟩ := sift_down_induct
    (fun q _ => q.n = pq.n ∧ q.last_index = pq.last_index ∧
      q.resize_if_needed = pq.resize_if_needed ∧ q.cmp = pq.cmp)
    (fun q i q1 i1 hP hs => by
      obtain ⟨-, -, -, hq⟩ := sift_down_step_some q q1 i i1 hs
      subst hq
      exact hP) budget pq r i ⟨rfl, rfl, rfl, rfl⟩ h
  exact hj

theorem push_store_cases (pq : priority_queue) (v : Int) :
    ∃ r, push_store pq v = Outcome.ret r ∧ r.last_index = pq.last_index + 1 ∧ r.n = pq.n ∧
      r.resize_if_needed = pq.resize_if_needed ∧ r.cmp = pq.cmp := by
  obtain ⟨r, hr⟩ := sift_up_returns pq.last_index.toNat
    { pq with arr := wr pq.arr pq.last_index v } pq.last_index (le_refl _)
  obtain ⟨h1, h2, h3, h4⟩ := sift_up_frame _ _ _ _ hr
  refine ⟨{ r with last_index := r.last_index + 1 }, ?_, ?_, h1, h3, h4⟩
  · unfold push_store
    rw [hr]
  · show r.last_index + 1 = pq.last_index + 1
    rw [h2]

theorem push_pq_cases (pq : priority_queue) (v : Int) :
    (pq.last_index = pq.n ∧ pq.resize_if_needed = 0 ∧ push_pq pq v = Outcome.crash pq) ∨
      (¬ (pq.last_index = pq.n ∧ pq.resize_if_needed = 0) ∧
        ∃ r, push_pq pq v = Outcome.ret r ∧ r.last_index = pq.last_index + 1 ∧
          r.resize_if_needed = pq.resize_if_needed ∧ r.cmp = pq.cmp) := by
  unfold push_pq
  by_cases h1 : pq.last_index = pq.n ∧ pq.resize_if_needed ≠ 0
  · right
    rw [if_pos h1]
    obtain ⟨r, hr, h2, -, h3, h4⟩ := push_store_cases
      { pq with n := ceil_1_5 pq.n, arr := realloc pq.arr (ceil_1_5 pq.n) } v
    exact ⟨fun h => h1.2 h.2, r, hr, h2, h3, h4⟩
  · rw [if_neg h1]
    by_cases h2 : pq.last_index = pq.n ∧ ¬ (pq.resize_if_needed ≠ 0)
    · left
      rw [if_pos h2]
      exact ⟨h2.1, not_not.1 h2.2, rfl⟩
    · right
      rw [if_neg h2]
      obtain ⟨r, hr, h3, -, h4, h5⟩ := push_store_cases pq v
      exact ⟨fun h => h2 ⟨h.1, not_not.2 h.2⟩, r, hr, h3, h4, h5⟩

theorem pop_pq_cases (pq : priority_queue) :
    (pq.last_index = 0 ∧ pop_pq pq = Outcome.crash pq) ∨
      (pq.last_index ≠ 0 ∧
        ∃ r, pop_pq pq = Outcome.ret r ∧ r.last_index = pq.last_index - 1 ∧ r.n = pq.n ∧
          r.resize_if_needed = pq.resize_if_needed ∧ r.cmp = pq.cmp) := by
  unfold pop_pq
  by_cases h : pq.last_index = 0
  · left
    rw [if_pos h]
    exact ⟨h, rfl⟩
  · right
    rw [if_neg h]
    obtain ⟨r, hr⟩ := sift_down_returns (pop_move pq).last_index.toNat (pop_move pq) 0
      (le_refl _) (by simp)
    obtain ⟨h1, h2, h3, h4⟩ := sift_down_frame _ _ _ _ hr
    rw [hr]
    exact ⟨h, r, rfl, h2, h1, h3, h4⟩

/-! Section: The root of a heap -/

theorem root_best (cmp : Int → Int → Int) (ho : priority_order cmp) (arr : List Int) (m : Int)
    (hh : heap_order cmp arr m) :
    ∀ i : Int, 0 ≤ i → i < m → cmp (rd arr i) (rd arr 0) ≠ 1 := by
  have hh2 := (heap_order_iff _ _ _).1 hh
  have key : ∀ k : Nat, (k : Int) < m → cmp (rd arr k) (rd arr 0) ≠ 1 := by
    intro k
    induction k using Nat.strong_induction_on with
    | _ k ih =>
      intro hk
      by_cases h0 : k = 0
      · subst h0
        exact fun h => ho.asymm _ _ h h
      · have h1 := ih ((k - 1) / 2) (by omega) (by omega)
        have h2 := hh2 k (by omega) hk
        have e : (((k - 1) / 2 : Nat) : Int) = ((k : Int) - 1) / 2 := by omega
        rw [e] at h1
        exact ho.trans _ _ _ h1 h2
  intro i hi0 him
  have := key i.toNat (by omega)
  rwa [Int.toNat_of_nonneg hi0] at this

theorem min_cmp_ne_one (a b : Int) : min_cmp a b ≠ 1 ↔ b ≤ a := by
  unfold min_cmp
  split_ifs <;> simp <;> omega

theorem max_cmp_ne_one (a b : Int) : max_cmp a b ≠ 1 ↔ a ≤ b := by
  unfold max_cmp
  split_ifs <;> simp <;> omega

theorem priority_order_of_std (cmp : Int → Int → Int) (h : cmp = min_cmp ∨ cmp = max_cmp) :
    priority_order cmp := by
  rcases h with h | h
  · rw [h]; exact priority_order_min
  · rw [h]; exact priority_order_max

/-! Section: Sequences of operations -/

theorem run_push (v : Int) (ops : List Op) (pq : priority_queue) :
    run (Op.push v :: ops) pq =
      match push_pq pq v with
      | Outcome.ret pq1 => run ops pq1
      | Outcome.crash s => Outcome.crash s
      | Outcome.out_of_budget => Outcome.out_of_budget := rfl

theorem run_pop (ops : List Op) (pq : priority_queue) :
    run (Op.pop :: ops) pq =
      match pop_pq pq with
      | Outcome.ret pq1 => run ops pq1
      | Outcome.crash s => Outcome.crash s
      | Outcome.out_of_budget => Outcome.out_of_budget := rfl

theorem run_append (a b : List Op) :
    ∀ pq, run (a ++ b) pq =
      match run a pq with
      | Outcome.ret r => run b r
      | Outcome.crash s => Outcome.crash s
      | Outcome.out_of_budget => Outcome.out_of_budget := by
  induction a with
  | nil => intro pq; rfl
  | cons op ops ih =>
    intro pq
    cases op with
    | push v =>
      rw [List.cons_append, run_push, run_push]
      cases push_pq pq v with
      | ret r => exact ih r
      | crash s => rfl
      | out_of_budget => rfl
    | pop =>
      rw [List.cons_append, run_pop, run_pop]
      cases pop_pq pq with
      | ret r => exact ih r
      | crash s => rfl
      | out_of_budget => rfl

theorem run_size (ops : List Op) :
    ∀ pq r, run ops pq = Outcome.ret r →
      r.last_index = pq.last_index + (pushes ops : Int) - (pops ops : Int) := by
  induction ops with
  | nil =>
    intro pq r h
    unfold run at h
    injection h with h
    subst h
    simp [pushes, pops]
  | cons op ops ih =>
    intro pq r h
    cases op with
    | push v =>
      rw [run_push] at h
      rcases push_pq_cases pq v with ⟨-, -, hc⟩ | ⟨-, r1, hr, hs, -, -⟩
      · rw [hc] at h; exact Outcome.noConfusion h
      · rw [hr] at h
        have := ih r1 r h
        rw [this, hs]
        simp only [pushes, pops]
        push_cast
        omega
    | pop =>
      rw [run_pop] at h
      rcases pop_pq_cases pq with ⟨-, hc⟩ | ⟨-, r1, hr, hs, -, -⟩
      · rw [hc] at h; exact Outcome.noConfusion h
      · rw [hr] at h
        have := ih r1 r h
        rw [this, hs]
        simp only [pushes, pops]
        push_cast
        omega

theorem run_pushes_spec (xs : List Int) :
    ∀ pq, wf pq →
      ((pq.resize_if_needed ≠ 0 ∧ 1 ≤ pq.n) ∨ pq.last_index + xs.length ≤ pq.n) →
      ∃ r, run (xs.map Op.push) pq = Outcome.ret r ∧ wf r ∧
        r.resize_if_needed = pq.resize_if_needed ∧ r.cmp = pq.cmp ∧ pq.n ≤ r.n ∧
        (pq.last_index + xs.length ≤ pq.n → r.n = pq.n) ∧
        r.last_index = pq.last_index + xs.length ∧ (live r).Perm (xs ++ live pq) ∧
        (priority_order pq.cmp → heap_ok pq → heap_ok r) := by
  induction xs with
  | nil =>
    intro pq hw _
    exact ⟨pq, rfl, hw, rfl, rfl, le_refl _, fun _ => rfl, by simp, List.Perm.refl _,
      fun _ h => h⟩
  | cons v vs ih =>
    intro pq hw hroom
    have hlen : ((v :: vs).length : Int) = (vs.length : Int) + 1 := by simp
    rw [hlen] at hroom
    obtain ⟨r1, h1, hw1, h3, h4, h5, h6, h7, h8⟩ := push_pq_spec pq v hw (by
      rcases hroom with h | h
      · exact Or.inr h
      · left; omega)
    have hn1 : pq.n ≤ r1.n := by
      rw [h6]
      split_ifs with hf
      · rcases hroom with h | h
        · unfold ceil_1_5; omega
        · omega
      · exact le_refl _
    obtain ⟨r, g1, gw, g3, g4, g5, g6, g7, g8, g9⟩ := ih r1 hw1 (by
      rcases hroom with h | h
      · left; rw [h4]; exact ⟨h.1, by omega⟩
      · right
        rw [h3, h6, if_neg (by omega)]
        omega)
    refine ⟨r, ?_, gw, g3.trans h4, g4.trans h5, by omega, ?_, ?_, ?_, ?_⟩
    · show run (Op.push v :: vs.map Op.push) pq = _
      rw [run_push, h1]
      exact g1
    · intro h
      rw [hlen] at h
      have e : r1.n = pq.n := by rw [h6, if_neg (by omega)]
      rw [g6 (by omega), e]
    · rw [g7, h3, hlen]; omega
    · refine g8.trans ?_
      refine (List.Perm.append_left vs h7).trans ?_
      exact List.perm_middle
    · intro ho hh
      exact g9 (h5 ▸ ho) (h8 ho hh)

theorem mem_live (pq : priority_queue) (x : Int) (hl : pq.last_index ≤ pq.arr.length)
    (hx : x ∈ live pq) : ∃ i : Int, 0 ≤ i ∧ i < pq.last_index ∧ x = rd pq.arr i := by
  unfold live at hx
  rw [take_eq_map_rd _ _ (by omega), List.mem_map] at hx
  obtain ⟨k, hk, rfl⟩ := hx
  rw [List.mem_range] at hk
  exact ⟨k, by omega, by omega, rfl⟩

theorem top_pq_cases (pq : priority_queue) :
    (pq.last_index = 0 ∧ top_pq pq = Outcome.crash pq) ∨
      (pq.last_index ≠ 0 ∧ top_pq pq = Outcome.ret (rd pq.arr 0)) := by
  unfold top_pq
  by_cases h : pq.last_index = 0
  · left; rw [if_pos h]; exact ⟨h, rfl⟩
  · right; rw [if_neg h]; exact ⟨h, rfl⟩

theorem drain_spec (k : Nat) :
    ∀ pq, wf pq → pq.last_index = k → priority_order pq.cmp → heap_ok pq →
      ∃ out q, drain k pq = Outcome.ret (out, q) ∧ q.last_index = 0 ∧
        out.Perm (live pq) ∧ out.Pairwise (fun a b => pq.cmp b a ≠ 1) := by
  induction k with
  | zero =>
    intro pq _ hk _ _
    refine ⟨[], pq, rfl, by simpa using hk, ?_, List.Pairwise.nil⟩
    unfold live
    rw [hk]
    simp
  | succ k ih =>
    intro pq hw hk ho hh
    obtain ⟨hlen, hl0, hln⟩ := hw
    have hpos : 0 < pq.last_index := by omega
    obtain ⟨r, h1, h2, h3, h4, h5, h6, h7, h8⟩ := pop_pq_spec pq hpos (by omega)
    obtain ⟨vs, q, g1, g2, g3, g4⟩ := ih r ⟨by omega, by omega, by omega⟩ (by omega)
      (h5 ▸ ho) (h8 ho hh)
    refine ⟨rd pq.arr 0 :: vs, q, ?_, g2, (g3.cons _).trans h7, ?_⟩
    · unfold drain
      rcases top_pq_cases pq with ⟨hz, -⟩ | ⟨-, ht⟩
      · omega
      · simp only [ht, h1, g1]
    · rw [List.pairwise_cons]
      refine ⟨?_, h5 ▸ g4⟩
      intro x hx
      have hx1 : x ∈ live pq := h7.subset (List.mem_cons_of_mem _ (g3.subset hx))
      obtain ⟨i, hi0, hil, rfl⟩ := mem_live pq x (by omega) hx1
      exact root_best pq.cmp ho pq.arr _ hh i hi0 hil

/-! Section: Fresh heaps and the push-then-drain run -/

theorem init_queue_wf (n : Nat) (cmp : Int → Int → Int) (g : Int) :
    wf (init_queue (n : Int) cmp g) := by
  unfold wf init_queue
  simp

theorem heap_ok_init (n : Int) (cmp : Int → Int → Int) (g : Int) :
    heap_ok (init_queue n cmp g) := by
  unfold heap_ok heap_order init_queue
  simp

theorem live_init (n : Int) (cmp : Int → Int → Int) (g : Int) :
    live (init_queue n cmp g) = [] := by
  unfold live init_queue
  simp

theorem heap_sort_spec (xs : List Int) (cmp : Int → Int → Int) (ho : priority_order cmp) :
    ∃ out q, heap_sort xs (init_resizable_priority_queue cmp) = Outcome.ret (out, q) ∧
      out.Pairwise (fun a b => cmp b a ≠ 1) ∧ out.Perm xs ∧ q.last_index = 0 := by
  have hw : wf (init_resizable_priority_queue cmp) := init_queue_wf 1 cmp 1
  obtain ⟨r, h1, hw1, -, h4, -, -, h7, h8, h9⟩ :=
    run_pushes_spec xs (init_resizable_priority_queue cmp) hw
      (Or.inl ⟨by show (1 : Int) ≠ 0; decide, by show (1 : Int) ≤ 1; decide⟩)
  have hcmp : r.cmp = cmp := h4
  have hlast : r.last_index = (xs.length : Int) := by
    rw [h7]
    show (0 : Int) + _ = _
    omega
  obtain ⟨out, q, g1, g2, g3, g4⟩ := drain_spec xs.length r hw1 hlast (hcmp ▸ ho)
    (h9 ho (heap_ok_init 1 cmp 1))
  refine ⟨out, q, ?_, hcmp ▸ g4, ?_, g2⟩
  · unfold heap_sort push_all
    simp only [h1, g1]
  · refine g3.trans (h8.trans ?_)
    show (xs ++ live (init_queue 1 cmp 1)).Perm xs
    rw [live_init, List.append_nil]

/-! Section: The claims -/

/-- C1: pushing the elements of any list `xs` in order into a fresh growable heap and then
performing `top_pq`, `pop_pq` as many times as `xs` is long returns; with `min_cmp` the values read
are `xs` in non-decreasing order, with `max_cmp` they are `xs` in non-increasing order (a sorted
permutation of `xs`, so duplicates appear once per occurrence), and the heap ends empty.  The
three runs named by the specification evaluate as stated. -/
theorem heap_sort_sorts :
    (∀ xs : List Int,
      (∃ out q, heap_sort xs (init_resizable_priority_queue min_cmp) = Outcome.ret (out, q) ∧
        out.Sorted (fun a b => a ≤ b) ∧ out.Perm xs ∧ q.last_index = 0 ∧ empty_pq q = 1) ∧
      (∃ out q, heap_sort xs (init_resizable_priority_queue max_cmp) = Outcome.ret (out, q) ∧
        out.Sorted (fun a b => a ≥ b) ∧ out.Perm xs ∧ q.last_index = 0 ∧ empty_pq q = 1)) ∧
    (heap_sort [5, 3, 8, 1, 9, 2] (init_resizable_priority_queue min_cmp)).values
      = some [1, 2, 3, 5, 8, 9] ∧
    (heap_sort [5, 3, 8, 1, 9, 2] (init_resizable_priority_queue max_cmp)).values
      = some [9, 8, 5, 3, 2, 1] ∧
    (heap_sort [4, 4, 4] (init_resizable_priority_queue min_cmp)).values = some [4, 4, 4] ∧
    (heap_sort [4, 4, 4] (init_resizable_priority_queue min_cmp)).final_size = some 0 := by
  refine ⟨fun xs => ⟨?_, ?_⟩, by decide, by decide, by decide, by decide⟩
  · obtain ⟨out, q, h1, h2, h3, h4⟩ := heap_sort_spec xs min_cmp priority_order_min
    refine ⟨out, q, h1, ?_, h3, h4, ?_⟩
    · exact List.Pairwise.imp (fun {a b} h => (min_cmp_ne_one b a).1 h) h2
    · unfold empty_pq; rw [if_pos h4]
  · obtain ⟨out, q, h1, h2, h3, h4⟩ := heap_sort_spec xs max_cmp priority_order_max
    refine ⟨out, q, h1, ?_, h3, h4, ?_⟩
    · exact List.Pairwise.imp (fun {a b} h => (max_cmp_ne_one b a).1 h) h2
    · unfold empty_pq; rw [if_pos h4]

/-- C2: on a non-empty heap that satisfies the heap-order invariant, `top_pq` returns
`storage[0]`; under `min_cmp` that value is the minimum of the live slots `storage[0..size)`,
under `max_cmp` it is their maximum. -/
theorem top_pq_returns_best (pq : priority_queue) (hs : 0 < pq.last_index) (hh : heap_ok pq) :
    top_pq pq = Outcome.ret (rd pq.arr 0) ∧
      (pq.cmp = min_cmp →
        ∀ i : Int, 0 ≤ i → i < pq.last_index → rd pq.arr 0 ≤ rd pq.arr i) ∧
      (pq.cmp = max_cmp →
        ∀ i : Int, 0 ≤ i → i < pq.last_index → rd pq.arr i ≤ rd pq.arr 0) := by
  refine ⟨?_, ?_, ?_⟩
  · unfold top_pq
    rw [if_neg (by omega)]
  · intro hc i hi0 him
    unfold heap_ok at hh
    rw [hc] at hh
    exact (min_cmp_ne_one _ _).1 (root_best min_cmp priority_order_min _ _ hh i hi0 him)
  · intro hc i hi0 him
    unfold heap_ok at hh
    rw [hc] at hh
    exact (max_cmp_ne_one _ _).1 (root_best max_cmp priority_order_max _ _ hh i hi0 him)

/-- Instance of C2 on a six-element min-heap: the root `1` is returned and is below slot 5. -/
theorem top_pq_returns_best_witness :
    0 < sample_full.last_index ∧ heap_ok sample_full ∧
      top_pq sample_full = Outcome.ret (rd sample_full.arr 0) ∧
      rd sample_full.arr 0 ≤ rd sample_full.arr 5 :=
  ⟨by decide, by decide, (top_pq_returns_best sample_full (by decide) (by decide)).1,
    (top_pq_returns_best sample_full (by decide) (by decide)).2.1 rfl 5 (by decide)
      (by decide)⟩

/-- C3: `push_pq` preserves the heap-order invariant.  For a heap using `min_cmp` or `max_cmp`
with `0 ≤ size ≤ capacity` that satisfies the invariant and is either not full or growable with
capacity at least 1, `push_pq` returns and the resulting heap satisfies the invariant over its
`size + 1` live slots. -/
theorem push_pq_preserves_heap_order (pq : priority_queue) (v : Int)
    (hc : pq.cmp = min_cmp ∨ pq.cmp = max_cmp) (hw : wf pq) (hh : heap_ok pq)
    (hroom : pq.last_index < pq.n ∨ (pq.resize_if_needed ≠ 0 ∧ 1 ≤ pq.n)) :
    ∃ r, push_pq pq v = Outcome.ret r ∧ r.last_index = pq.last_index + 1 ∧ heap_ok r := by
  obtain ⟨r, h1, -, h3, -, -, -, -, h8⟩ := push_pq_spec pq v hw hroom
  exact ⟨r, h1, h3, h8 (priority_order_of_std _ hc) hh⟩

/-- Instance of C3: pushing `8` into a three-element max-heap with one free slot. -/
theorem push_pq_preserves_heap_order_witness :
    (sample_room.cmp = min_cmp ∨ sample_room.cmp = max_cmp) ∧ wf sample_room ∧
      heap_ok sample_room ∧
      (sample_room.last_index < sample_room.n ∨
        (sample_room.resize_if_needed ≠ 0 ∧ 1 ≤ sample_room.n)) ∧
      ∃ r, push_pq sample_room 8 = Outcome.ret r ∧
        r.last_index = sample_room.last_index + 1 ∧ heap_ok r :=
  ⟨Or.inr rfl, by decide, by decide, Or.inl (by decide),
    push_pq_preserves_heap_order sample_room 8 (Or.inr rfl) (by decide) (by decide)
      (Or.inl (by decide))⟩

/-- C4: `pop_pq` preserves the heap-order invariant.  For a non-empty heap using `min_cmp` or
`max_cmp` with `size ≤ capacity` that satisfies the invariant, `pop_pq` returns and the resulting
heap satisfies the invariant over its `size - 1` live slots. -/
theorem pop_pq_preserves_heap_order (pq : priority_queue)
    (hc : pq.cmp = min_cmp ∨ pq.cmp = max_cmp) (hw : wf pq) (hs : 0 < pq.last_index)
    (hh : heap_ok pq) :
    ∃ r, pop_pq pq = Outcome.ret r ∧ r.last_index = pq.last_index - 1 ∧ heap_ok r := by
  obtain ⟨hlen, -, hln⟩ := hw
  obtain ⟨r, h1, -, h3, -, -, -, -, h8⟩ := pop_pq_spec pq hs (by omega)
  exact ⟨r, h1, h3, h8 (priority_order_of_std _ hc) hh⟩

/-- Instance of C4: popping a full six-element min-heap. -/
theorem pop_pq_preserves_heap_order_witness :
    (sample_full.cmp = min_cmp ∨ sample_full.cmp = max_cmp) ∧ wf sample_full ∧
      0 < sample_full.last_index ∧ heap_ok sample_full ∧
      ∃ r, pop_pq sample_full = Outcome.ret r ∧
        r.last_index = sample_full.last_index - 1 ∧ heap_ok r :=
  ⟨Or.inl rfl, by decide, by decide, by decide,
    pop_pq_preserves_heap_order sample_full (Or.inl rfl) (by decide) (by decide) (by decide)⟩

/-- C5: `pop_pq` removes exactly one occurrence of the root and nothing else.  For a non-empty
heap with `size ≤ capacity` and any comparator, `pop_pq` returns, `size` drops by one, and the
multiset of live elements afterwards is the multiset of live elements before with one occurrence
of the old `storage[0]` erased. -/
theorem pop_pq_removes_root (pq : priority_queue) (hw : wf pq) (hs : 0 < pq.last_index) :
    ∃ r, pop_pq pq = Outcome.ret r ∧ r.last_index = pq.last_index - 1 ∧
      rd pq.arr 0 ∈ live pq ∧
      ((live r : List Int) : Multiset Int) =
        ((live pq : List Int) : Multiset Int).erase (rd pq.arr 0) := by
  obtain ⟨hlen, -, hln⟩ := hw
  obtain ⟨r, h1, -, h3, -, -, -, h7, -⟩ := pop_pq_spec pq hs (by omega)
  refine ⟨r, h1, h3, h7.subset (List.mem_cons_self _ _), ?_⟩
  rw [Multiset.coe_erase, Multiset.coe_eq_coe]
  have := h7.erase (rd pq.arr 0)
  rwa [List.erase_cons_head] at this

/-- Instance of C5: popping a full six-element heap. -/
theorem pop_pq_removes_root_witness :
    wf sample_full ∧ 0 < sample_full.last_index ∧
      ∃ r, pop_pq sample_full = Outcome.ret r ∧
        r.last_index = sample_full.last_index - 1 ∧
        rd sample_full.arr 0 ∈ live sample_full ∧
        ((live r : List Int) : Multiset Int) =
          ((live sample_full : List Int) : Multiset Int).erase (rd sample_full.arr 0) :=
  ⟨by decide, by decide, pop_pq_removes_root sample_full (by decide) (by decide)⟩

/-- C6: `push_pq` inserts exactly the given element.  For a heap with `size ≤ capacity` that is
not full, or is growable with capacity at least 1, and any comparator, `push_pq` returns and the
multiset of live elements afterwards is the multiset before plus one occurrence of `v`; this
covers the growth by reallocation. -/
theorem push_pq_inserts (pq : priority_queue) (v : Int) (hw : wf pq)
    (hroom : pq.last_index < pq.n ∨ (pq.resize_if_needed ≠ 0 ∧ 1 ≤ pq.n)) :
    ∃ r, push_pq pq v = Outcome.ret r ∧ r.last_index = pq.last_index + 1 ∧
      ((live r : List Int) : Multiset Int) = v ::ₘ ((live pq : List Int) : Multiset Int) := by
  obtain ⟨r, h1, -, h3, -, -, -, h7, -⟩ := push_pq_spec pq v hw hroom
  refine ⟨r, h1, h3, ?_⟩
  rw [Multiset.cons_coe, Multiset.coe_eq_coe]
  exact h7

/-- Instance of C6: a push into a full growable heap of capacity 1, which reallocates. -/
theorem push_pq_inserts_witness :
    wf sample_grow ∧
      (sample_grow.last_index < sample_grow.n ∨
        (sample_grow.resize_if_needed ≠ 0 ∧ 1 ≤ sample_grow.n)) ∧
      ∃ r, push_pq sample_grow 7 = Outcome.ret r ∧
        r.last_index = sample_grow.last_index + 1 ∧
        ((live r : List Int) : Multiset Int) =
          7 ::ₘ ((live sample_grow : List Int) : Multiset Int) :=
  ⟨by decide, Or.inr (by decide),
    push_pq_inserts sample_grow 7 (by decide) (Or.inr (by decide))⟩

/-- C7: size accounting.  A `push_pq` that returns increases `last_index` by exactly 1, a `pop_pq`
that returns decreases it by exactly 1, and neither can exhaust its loop budget, so every call
either returns or takes the forced crash; after a run of operations on a fresh heap in which
every call returned, `last_index` is the number of pushes minus the number of pops; `empty_pq`
returns 1 exactly when `last_index` is 0. -/
theorem size_accounting :
    (∀ pq v r, push_pq pq v = Outcome.ret r → r.last_index = pq.last_index + 1) ∧
    (∀ pq r, pop_pq pq = Outcome.ret r → r.last_index = pq.last_index - 1) ∧
    (∀ pq v, push_pq pq v ≠ Outcome.out_of_budget) ∧
    (∀ pq, pop_pq pq ≠ Outcome.out_of_budget) ∧
    (∀ (n : Int) (cmp : Int → Int → Int) (g : Int) (ops : List Op) (r : priority_queue),
      run ops (init_queue n cmp g) = Outcome.ret r →
        r.last_index = (pushes ops : Int) - (pops ops : Int)) ∧
    (∀ pq, empty_pq pq = 1 ↔ pq.last_index = 0) := by
  refine ⟨?_, ?_, ?_, ?_, ?_, ?_⟩
  · intro pq v r h
    rcases push_pq_cases pq v with ⟨-, -, hc⟩ | ⟨-, r1, hr, hs, -, -⟩
    · rw [hc] at h; exact Outcome.noConfusion h
    · rw [hr] at h
      injection h with h
      rw [← h, hs]
  · intro pq r h
    rcases pop_pq_cases pq with ⟨-, hc⟩ | ⟨-, r1, hr, hs, -, -⟩
    · rw [hc] at h; exact Outcome.noConfusion h
    · rw [hr] at h
      injection h with h
      rw [← h, hs]
  · intro pq v h
    rcases push_pq_cases pq v with ⟨-, -, hc⟩ | ⟨-, r1, hr, -, -, -⟩
    · rw [hc] at h; exact Outcome.noConfusion h
    · rw [hr] at h; exact Outcome.noConfusion h
  · intro pq h
    rcases pop_pq_cases pq with ⟨-, hc⟩ | ⟨-, r1, hr, -, -, -⟩
    · rw [hc] at h; exact Outcome.noConfusion h
    · rw [hr] at h; exact Outcome.noConfusion h
  · intro n cmp g ops r h
    have := run_size ops _ r h
    rw [this]
    show (0 : Int) + _ - _ = _
    omega
  · intro pq
    unfold empty_pq
    split_ifs with h
    · simp [h]
    · simp [h]

/-- Instance of C7: two pushes and one pop on a fresh fixed heap of capacity 2 leave size 1. -/
theorem size_accounting_witness :
    run [Op.push 5, Op.push 3, Op.pop] (init_queue 2 min_cmp 0) =
        Outcome.ret { n := 2, arr := [5, 5], last_index := 1, resize_if_needed := 0,
                      cmp := min_cmp } ∧
      (1 : Int) = (pushes [Op.push 5, Op.push 3, Op.pop] : Int) -
        (pops [Op.push 5, Op.push 3, Op.pop] : Int) :=
  ⟨rfl, size_accounting.2.2.2.2.1 2 min_cmp 0 [Op.push 5, Op.push 3, Op.pop]
    { n := 2, arr := [5, 5], last_index := 1, resize_if_needed := 0, cmp := min_cmp } rfl⟩

/-- C8: fixed-capacity exhaustion.  `push_pq` takes the forced crash exactly when
`last_index = n` and the heap is not growable; the heap at the crash is the heap passed in (the
element is not stored, nothing is changed); a fixed heap of capacity `c` returns from `c`
pushes and crashes on the next one. -/
theorem push_pq_exhaustion :
    (∀ pq v, (∃ s, push_pq pq v = Outcome.crash s) ↔
      (pq.last_index = pq.n ∧ pq.resize_if_needed = 0)) ∧
    (∀ pq v s, push_pq pq v = Outcome.crash s → s = pq) ∧
    (∀ (c : Nat) (cmp : Int → Int → Int) (vs : List Int) (w : Int), vs.length = c →
      ∃ r, push_all vs (init_fixed_size_priority_queue c cmp) = Outcome.ret r ∧
        r.last_index = c ∧ push_pq r w = Outcome.crash r) := by
  refine ⟨?_, ?_, ?_⟩
  · intro pq v
    rcases push_pq_cases pq v with ⟨h1, h2, hc⟩ | ⟨hn, r1, hr, -, -, -⟩
    · exact ⟨fun _ => ⟨h1, h2⟩, fun _ => ⟨pq, hc⟩⟩
    · constructor
      · rintro ⟨s, hs⟩
        rw [hr] at hs
        exact Outcome.noConfusion hs
      · intro h
        exact absurd h hn
  · intro pq v s h
    rcases push_pq_cases pq v with ⟨-, -, hc⟩ | ⟨-, r1, hr, -, -, -⟩
    · rw [hc] at h
      injection h with h
      exact h.symm
    · rw [hr] at h
      exact Outcome.noConfusion h
  · intro c cmp vs w hv
    have hw : wf (init_fixed_size_priority_queue c cmp) := init_queue_wf c cmp 0
    obtain ⟨r, h1, -, h3, -, -, h6, h7, -, -⟩ :=
      run_pushes_spec vs (init_fixed_size_priority_queue c cmp) hw
        (Or.inr (by show (0 : Int) + _ ≤ (c : Int); omega))
    have hn : r.n = (c : Int) := h6 (by show (0 : Int) + _ ≤ (c : Int); omega)
    have hl : r.last_index = (c : Int) := by
      rw [h7]
      show (0 : Int) + _ = _
      omega
    have hg : r.resize_if_needed = 0 := h3
    refine ⟨r, h1, hl, ?_⟩
    rcases push_pq_cases r w with ⟨-, -, hc⟩ | ⟨hne, -⟩
    · exact hc
    · exact absurd ⟨by rw [hl, hn], hg⟩ hne

/-- Instance of C8: a fixed heap of capacity 2 crashes on the third push. -/
theorem push_pq_exhaustion_witness :
    [(5 : Int), 3].length = 2 ∧
      ∃ r, push_all [5, 3] (init_fixed_size_priority_queue (2 : Nat) min_cmp) = Outcome.ret r ∧
        r.last_index = (2 : Nat) ∧ push_pq r 8 = Outcome.crash r :=
  ⟨rfl, push_pq_exhaustion.2.2 2 min_cmp [5, 3] 8 rfl⟩

/-- C9: empty-access faults.  `top_pq` takes the forced crash exactly when `last_index = 0`, and
so does `pop_pq`; in that case the outcome is the crash with the heap as it was passed in, not a
returned value.  This is what happens on a freshly constructed heap, on the heap left by any run
with as many pops as pushes, and on the heap left by pushing a list and draining it. -/
theorem empty_access_faults :
    (∀ pq, (∃ s, top_pq pq = Outcome.crash s) ↔ pq.last_index = 0) ∧
    (∀ pq, (∃ s, pop_pq pq = Outcome.crash s) ↔ pq.last_index = 0) ∧
    (∀ pq, pq.last_index = 0 →
      top_pq pq = Outcome.crash pq ∧ pop_pq pq = Outcome.crash pq) ∧
    (∀ (n : Int) (cmp : Int → Int → Int) (g : Int),
      top_pq (init_queue n cmp g) = Outcome.crash (init_queue n cmp g) ∧
      pop_pq (init_queue n cmp g) = Outcome.crash (init_queue n cmp g)) ∧
    (∀ (n : Int) (cmp : Int → Int → Int) (g : Int) (ops : List Op) (r : priority_queue),
      run ops (init_queue n cmp g) = Outcome.ret r → pushes ops = pops ops →
        top_pq r = Outcome.crash r ∧ pop_pq r = Outcome.crash r) ∧
    (∀ (xs : List Int) (cmp : Int → Int → Int), cmp = min_cmp ∨ cmp = max_cmp →
      ∃ out q, heap_sort xs (init_resizable_priority_queue cmp) = Outcome.ret (out, q) ∧
        top_pq q = Outcome.crash q ∧ pop_pq q = Outcome.crash q) := by
  have key : ∀ pq : priority_queue, pq.last_index = 0 →
      top_pq pq = Outcome.crash pq ∧ pop_pq pq = Outcome.crash pq := by
    intro pq h
    unfold top_pq pop_pq
    rw [if_pos h, if_pos h]
    exact ⟨rfl, rfl⟩
  refine ⟨?_, ?_, key, ?_, ?_, ?_⟩
  · intro pq
    rcases top_pq_cases pq with ⟨h, hc⟩ | ⟨h, hr⟩
    · exact ⟨fun _ => h, fun _ => ⟨pq, hc⟩⟩
    · constructor
      · rintro ⟨s, hs⟩
        rw [hr] at hs
        exact Outcome.noConfusion hs
      · intro h0
        exact absurd h0 h
  · intro pq
    rcases pop_pq_cases pq with ⟨h, hc⟩ | ⟨h, r, hr, -⟩
    · exact ⟨fun _ => h, fun _ => ⟨pq, hc⟩⟩
    · constructor
      · rintro ⟨s, hs⟩
        rw [hr] at hs
        exact Outcome.noConfusion hs
      · intro h0
        exact absurd h0 h
  · intro n cmp g
    exact key _ rfl
  · intro n cmp g ops r h he
    refine key r ?_
    rw [run_size ops _ r h, he]
    show (0 : Int) + _ - _ = 0
    omega
  · intro xs cmp hc
    obtain ⟨out, q, h1, -, -, h4⟩ := heap_sort_spec xs cmp (priority_order_of_std cmp hc)
    exact ⟨out, q, h1, key q h4⟩

/-- Instance of C9: after one push and one pop on a fresh growable heap, both `top_pq` and
`pop_pq` crash. -/
theorem empty_access_faults_witness :
    run [Op.push 7, Op.pop] (init_queue 1 min_cmp 1) =
        Outcome.ret { n := 1, arr := [7], last_index := 0, resize_if_needed := 1,
                      cmp := min_cmp } ∧
      pushes [Op.push 7, Op.pop] = pops [Op.push 7, Op.pop] ∧
      top_pq { n := 1, arr := [7], last_index := 0, resize_if_needed := 1, cmp := min_cmp } =
        Outcome.crash
          { n := 1, arr := [7], last_index := 0, resize_if_needed := 1, cmp := min_cmp } ∧
      pop_pq { n := 1, arr := [7], last_index := 0, resize_if_needed := 1, cmp := min_cmp } =
        Outcome.crash
          { n := 1, arr := [7], last_index := 0, resize_if_needed := 1, cmp := min_cmp } :=
  ⟨rfl, rfl, empty_access_faults.2.2.2.2.1 1 min_cmp 1 [Op.push 7, Op.pop]
    { n := 1, arr := [7], last_index := 0, resize_if_needed := 1, cmp := min_cmp } rfl rfl⟩

/-- C10: space is reclaimed on a fixed heap.  On a fixed-size heap of capacity `c ≥ 1` using
`min_cmp` or `max_cmp`, the sequence of `c` pushes, one pop and one more push returns from every
call and ends with `last_index = c`; the live elements are then the pushed values with one
occurrence of their highest-priority element `m` (the least under `min_cmp`, the greatest under
`max_cmp`) removed, plus `w`. -/
theorem fixed_heap_reclaims_space (c : Nat) (hc : 1 ≤ c) (vs : List Int) (hv : vs.length = c)
    (w : Int) (cmp : Int → Int → Int) (hcmp : cmp = min_cmp ∨ cmp = max_cmp) :
    ∃ r m, run (vs.map Op.push ++ [Op.pop, Op.push w])
        (init_fixed_size_priority_queue c cmp) = Outcome.ret r ∧
      r.last_index = c ∧ m ∈ vs ∧
      (cmp = min_cmp → ∀ x ∈ vs, m ≤ x) ∧ (cmp = max_cmp → ∀ x ∈ vs, x ≤ m) ∧
      ((live r : List Int) : Multiset Int) = w ::ₘ ((vs : List Int) : Multiset Int).erase m := by
  have hw : wf (init_fixed_size_priority_queue c cmp) := init_queue_wf c cmp 0
  have ho := priority_order_of_std cmp hcmp
  obtain ⟨r1, h1, hw1, -, h4, -, h6, h7, h8, h9⟩ :=
    run_pushes_spec vs (init_fixed_size_priority_queue c cmp) hw
      (Or.inr (by show (0 : Int) + _ ≤ (c : Int); omega))
  have hcmp1 : r1.cmp = cmp := h4
  have hn1 : r1.n = (c : Int) := h6 (by show (0 : Int) + _ ≤ (c : Int); omega)
  have hl1 : r1.last_index = (c : Int) := by
    rw [h7]
    show (0 : Int) + _ = _
    omega
  have hlive1 : (live r1).Perm vs := by
    refine h8.trans ?_
    show (vs ++ live (init_queue c cmp 0)).Perm vs
    rw [live_init, List.append_nil]
  have hh1 : heap_ok r1 := h9 ho (heap_ok_init _ _ _)
  obtain ⟨hlen1, -, -⟩ := hw1
  obtain ⟨r2, p1, p2, p3, p4, p5, p6, p7, -⟩ := pop_pq_spec r1 (by omega) (by omega)
  obtain ⟨r3, q1, -, q3, -, -, -, q7, -⟩ := push_pq_spec r2 w ⟨by omega, by omega, by omega⟩
    (Or.inl (by omega))
  have hbest : ∀ x ∈ vs, cmp x (rd r1.arr 0) ≠ 1 := by
    intro x hx
    obtain ⟨i, hi0, hil, rfl⟩ := mem_live r1 x (by omega) (hlive1.symm.subset hx)
    have := root_best r1.cmp (hcmp1 ▸ ho) r1.arr _ hh1 i hi0 hil
    rwa [hcmp1] at this
  refine ⟨r3, rd r1.arr 0, ?_, by omega, ?_, ?_, ?_, ?_⟩
  · rw [run_append, h1]
    show run [Op.pop, Op.push w] r1 = _
    rw [run_pop, p1]
    show run [Op.push w] r2 = _
    rw [run_push, q1]
    rfl
  · exact hlive1.subset (p7.subset (List.mem_cons_self _ _))
  · intro hm x hx
    have := hbest x hx
    rw [hm] at this
    exact (min_cmp_ne_one _ _).1 this
  · intro hm x hx
    have := hbest x hx
    rw [hm] at this
    exact (max_cmp_ne_one _ _).1 this
  · rw [Multiset.coe_erase, Multiset.cons_coe, Multiset.coe_eq_coe]
    refine q7.trans (List.Perm.cons _ ?_)
    have := (p7.trans hlive1).erase (rd r1.arr 0)
    rwa [List.erase_cons_head] at this

/-- Instance of C10: capacity 2, pushes of 5 and 3, a pop, then a push of 4. -/
theorem fixed_heap_reclaims_space_witness :
    1 ≤ 2 ∧ [(5 : Int), 3].length = 2 ∧ (min_cmp = min_cmp ∨ min_cmp = max_cmp) ∧
      ∃ r m, run ([(5 : Int), 3].map Op.push ++ [Op.pop, Op.push 4])
          (init_fixed_size_priority_queue (2 : Nat) min_cmp) = Outcome.ret r ∧
        r.last_index = (2 : Nat) ∧ m ∈ [(5 : Int), 3] ∧
        (min_cmp = min_cmp → ∀ x ∈ [(5 : Int), 3], m ≤ x) ∧
        (min_cmp = max_cmp → ∀ x ∈ [(5 : Int), 3], x ≤ m) ∧
        ((live r : List Int) : Multiset Int) =
          4 ::ₘ (([(5 : Int), 3] : List Int) : Multiset Int).erase m :=
  ⟨by decide, rfl, Or.inl rfl,
    fixed_heap_reclaims_space 2 (by decide) [5, 3] rfl 4 min_cmp (Or.inl rfl)⟩

/-! Section: Bounds of the array accesses -/

theorem sift_down_step_accesses_bound (pq : priority_queue) (i : Int) (h0 : 0 ≤ i) :
    ∀ k ∈ sift_down_step_accesses pq i, 0 ≤ k ∧ k < pq.last_index := by
  intro k hk
  unfold sift_down_step_accesses at hk
  have hp := sift_down_pick_ind pq i
  split_ifs at hk with h1 h2 h3 h4 <;>
    simp only [List.mem_append, List.mem_cons, List.mem_singleton, List.not_mem_nil,
      or_false, false_or, or_self] at hk <;>
    unfold left_son right_son at * <;>
    split_ifs at * <;> omega

theorem sift_down_accesses_bound (budget : Nat) :
    ∀ (pq : priority_queue) (i : Int), 0 ≤ i →
      ∀ k ∈ sift_down_accesses budget pq i, 0 ≤ k ∧ k < pq.last_index := by
  induction budget with
  | zero =>
    intro pq i h0 k hk
    exact sift_down_step_accesses_bound pq i h0 k hk
  | succ b ih =>
    intro pq i h0 k hk
    unfold sift_down_accesses at hk
    cases hs : sift_down_step pq i with
    | none =>
      rw [hs] at hk
      exact sift_down_step_accesses_bound pq i h0 k hk
    | some p =>
      obtain ⟨pq1, i1⟩ := p
      rw [hs] at hk
      simp only [List.mem_append] at hk
      rcases hk with hk | hk
      · exact sift_down_step_accesses_bound pq i h0 k hk
      · obtain ⟨-, h2, -, h4⟩ := sift_down_step_some pq pq1 i i1 hs
        have hl : pq1.last_index = pq.last_index := by rw [h4]
        have := ih pq1 i1 (by omega) k hk
        omega

theorem pop_pq_accesses_bound (pq : priority_queue) (h0 : 0 < pq.last_index) :
    pq.last_index ∈ pop_pq_accesses pq ∧
      ∀ k ∈ pop_pq_accesses pq, 0 ≤ k ∧ k ≤ pq.last_index := by
  unfold pop_pq_accesses
  rw [if_neg (by omega)]
  refine ⟨by simp, ?_⟩
  intro k hk
  rw [List.mem_append] at hk
  rcases hk with hk | hk
  · simp only [List.mem_cons, List.mem_singleton, List.not_mem_nil, or_false] at hk
    omega
  · have := sift_down_accesses_bound _ (pop_move pq) 0 (le_refl _) k hk
    have e : (pop_move pq).last_index = pq.last_index - 1 := rfl
    omega

/-- C11, the code at a full heap: on the fixed heap of capacity 1 that holds one element (the
heap left by `push_pq(3)` on `init_fixed_size_priority_queue(1, min_cmp)`), `pop_pq` accesses the
indices `0, 1, 0, 0`; the access at index 1 is the store `arr[last_index] = 0` of line 133 and
lies outside the block of 1 slot, so not every access of `pop_pq` is inside `[0, capacity)`. -/
theorem pop_pq_store_outside_block :
    run [Op.push 3] (init_fixed_size_priority_queue 1 min_cmp) = Outcome.ret sample_one ∧
      wf sample_one ∧ 1 ≤ sample_one.n ∧ 0 < sample_one.last_index ∧
      pop_pq_accesses sample_one = [0, 1, 0, 0] ∧
      ¬ ∀ i ∈ pop_pq_accesses sample_one, in_block sample_one.n i :=
  ⟨rfl, by decide, by decide, by decide, by decide, by decide⟩

/-! Section: Growable heaps -/

theorem init_queue_wf_int (n : Int) (h : 0 ≤ n) (cmp : Int → Int → Int) (g : Int) :
    wf (init_queue n cmp g) := by
  unfold wf init_queue
  simp
  omega

theorem growable_pushes_return (cmp : Int → Int → Int) (xs : List Int) :
    ∃ r, push_all xs (init_resizable_priority_queue cmp) = Outcome.ret r ∧
      r.last_index = xs.length ∧ r.last_index ≤ r.n := by
  have hw : wf (init_resizable_priority_queue cmp) := init_queue_wf 1 cmp 1
  have hg : (init_resizable_priority_queue cmp).resize_if_needed ≠ 0 := by
    show (1 : Int) ≠ 0
    decide
  have hn : 1 ≤ (init_resizable_priority_queue cmp).n := by
    show (1 : Int) ≤ 1
    decide
  obtain ⟨r, h1, hw1, -, -, -, -, h7, -, -⟩ :=
    run_pushes_spec xs (init_resizable_priority_queue cmp) hw (Or.inl ⟨hg, hn⟩)
  refine ⟨r, h1, ?_, hw1.2.2⟩
  rw [h7]
  show (0 : Int) + _ = _
  omega

theorem push_pq_grows (pq : priority_queue) (v : Int) (hf : pq.last_index = pq.n)
    (hg : pq.resize_if_needed ≠ 0) :
    ∃ r, push_pq pq v = Outcome.ret r ∧ r.n = ceil_1_5 pq.n ∧
      r.last_index = pq.last_index + 1 := by
  obtain ⟨r, hr, h2, h3, -, -⟩ := push_store_cases
    { pq with n := ceil_1_5 pq.n, arr := realloc pq.arr (ceil_1_5 pq.n) } v
  refine ⟨r, ?_, h3, h2⟩
  unfold push_pq
  rw [if_pos ⟨hf, hg⟩]
  exact hr

theorem push_pq_keeps_capacity (pq : priority_queue) (v : Int) (hf : pq.last_index ≠ pq.n) :
    ∃ r, push_pq pq v = Outcome.ret r ∧ r.n = pq.n ∧ r.last_index = pq.last_index + 1 := by
  obtain ⟨r, hr, h2, h3, -, -⟩ := push_store_cases pq v
  refine ⟨r, ?_, h3, h2⟩
  unfold push_pq
  rw [if_neg (fun h => hf h.1), if_neg (fun h => hf h.1)]
  exact hr

theorem ceil_half (n : Int) : ⌈(n : ℚ) / 2⌉ = (n + 1) / 2 := by
  rw [Int.ceil_eq_iff]
  obtain ⟨k, hk⟩ : ∃ k, n = 2 * k ∨ n = 2 * k + 1 := ⟨n / 2, by omega⟩
  rcases hk with rfl | rfl
  · have e : (2 * k + 1) / 2 = k := by omega
    rw [e]
    push_cast
    constructor <;> linarith
  · have e : (2 * k + 1 + 1) / 2 = k + 1 := by omega
    rw [e]
    push_cast
    constructor <;> linarith

/-- C13: growth policy.  A `push_pq` on a growable heap with `last_index = n` returns with the
new capacity `ceil(1.5 * n)`, which equals `n + ceil(n / 2)` and `(3 n + 1) div 2` and, for
`n ≥ 1`, is strictly greater than `n`; a `push_pq` with `last_index < n` returns with the
capacity unchanged; pushing 19 elements into a fresh growable heap visits the capacities
1, 2, 3, 5, 8, 12, 18, 27. -/
theorem growth_policy :
    (∀ (pq : priority_queue) (v : Int), pq.resize_if_needed ≠ 0 → pq.last_index = pq.n →
      ∃ r, push_pq pq v = Outcome.ret r ∧ r.n = ⌈(pq.n : ℚ) * (3 / 2)⌉ ∧
        r.n = pq.n + ⌈(pq.n : ℚ) / 2⌉ ∧ r.n = (3 * pq.n + 1) / 2 ∧ (1 ≤ pq.n → pq.n < r.n)) ∧
    (∀ (pq : priority_queue) (v : Int), pq.last_index < pq.n →
      ∃ r, push_pq pq v = Outcome.ret r ∧ r.n = pq.n) ∧
    capacities (List.replicate 19 0) (init_resizable_priority_queue min_cmp)
      = [1, 2, 3, 5, 8, 12, 18, 27] := by
  refine ⟨?_, ?_, by decide⟩
  · intro pq v hg hf
    obtain ⟨r, h1, h2, -⟩ := push_pq_grows pq v hf hg
    refine ⟨r, h1, ?_, ?_, ?_, ?_⟩
    · rw [h2, ceil_1_5_eq_ceil]
    · rw [h2, ceil_half]
      unfold ceil_1_5
      omega
    · rw [h2]
      rfl
    · intro hn
      rw [h2]
      unfold ceil_1_5
      omega
  · intro pq v hf
    obtain ⟨r, h1, h2, -⟩ := push_pq_keeps_capacity pq v (by omega)
    exact ⟨r, h1, h2⟩

/-- Instance of C13: a push into the full growable heap of capacity 1 grows it to capacity 2. -/
theorem growth_policy_witness :
    sample_grow.resize_if_needed ≠ 0 ∧ sample_grow.last_index = sample_grow.n ∧
      1 ≤ sample_grow.n ∧
      ∃ r, push_pq sample_grow 7 = Outcome.ret r ∧
        r.n = ⌈(sample_grow.n : ℚ) * (3 / 2)⌉ ∧
        r.n = sample_grow.n + ⌈(sample_grow.n : ℚ) / 2⌉ ∧
        r.n = (3 * sample_grow.n + 1) / 2 ∧ sample_grow.n < r.n :=
  ⟨by decide, by decide, by decide,
    (growth_policy.1 sample_grow 7 (by decide) (by decide)).imp
      (fun _ h => ⟨h.1, h.2.1, h.2.2.1, h.2.2.2.1, h.2.2.2.2 (by decide)⟩)⟩

/-! Section: Read-only calls and constructors -/

/-- C14: peek and emptiness check are read-only.  On a non-empty heap a `top_pq` call returns
`storage[0]` and leaves the heap (storage, size, capacity, growth flag, comparator) exactly as it
was, so a second `top_pq` call right after it returns the same value and again the same heap;
an `empty_pq` call returns `size == 0` and leaves the heap as it was, on every heap. -/
theorem peek_is_read_only (pq : priority_queue) :
    (pq.last_index ≠ 0 →
      call Call.top pq = Outcome.ret (some (rd pq.arr 0), pq) ∧
      ∀ v q, call Call.top pq = Outcome.ret (v, q) →
        q.arr = pq.arr ∧ q.last_index = pq.last_index ∧ q.n = pq.n ∧
        q.resize_if_needed = pq.resize_if_needed ∧ q.cmp = pq.cmp ∧
        call Call.top q = Outcome.ret (v, q)) ∧
    call Call.empty pq = Outcome.ret (some (empty_pq pq), pq) ∧
    (empty_pq pq = 1 ↔ pq.last_index = 0) := by
  refine ⟨?_, rfl, ?_⟩
  · intro hne
    have ht : call Call.top pq = Outcome.ret (some (rd pq.arr 0), pq) := by
      have h1 : top_pq pq = Outcome.ret (rd pq.arr 0) := by
        unfold top_pq
        rw [if_neg hne]
      show (match top_pq pq with
        | Outcome.ret v => Outcome.ret (some v, pq)
        | Outcome.crash s => Outcome.crash s
        | Outcome.out_of_budget => Outcome.out_of_budget) = _
      rw [h1]
    refine ⟨ht, ?_⟩
    intro v q h
    rw [ht] at h
    injection h with h
    injection h with hv hq
    subst hq
    subst hv
    exact ⟨rfl, rfl, rfl, rfl, rfl, ht⟩
  · unfold empty_pq
    split_ifs with h <;> simp [h]

/-- Instance of C14: two `top_pq` calls in a row on a six-element heap both return 1. -/
theorem peek_is_read_only_witness :
    sample_full.last_index ≠ 0 ∧
      call Call.top sample_full = Outcome.ret (some 1, sample_full) ∧
      call Call.top sample_full = Outcome.ret (some (rd sample_full.arr 0), sample_full) :=
  ⟨by decide, rfl, ((peek_is_read_only sample_full).1 (by decide)).1⟩

/-- C15: constructors.  `init_fixed_size_priority_queue n cmp` is `init_queue n cmp 0`, with
capacity `n`, size 0 and growth disabled; `init_resizable_priority_queue cmp` is
`init_queue 1 cmp 1`, with capacity 1, size 0 and growth enabled; every heap made by `init_queue`
has size 0, is reported empty by `empty_pq`, has no live element and satisfies the heap-order
invariant, and its block has `n` slots when `n ≥ 0`. -/
theorem constructor_results (cmp : Int → Int → Int) (n g : Int) :
    init_fixed_size_priority_queue n cmp = init_queue n cmp 0 ∧
    (init_fixed_size_priority_queue n cmp).n = n ∧
    (init_fixed_size_priority_queue n cmp).last_index = 0 ∧
    (init_fixed_size_priority_queue n cmp).resize_if_needed = 0 ∧
    (init_fixed_size_priority_queue n cmp).cmp = cmp ∧
    init_resizable_priority_queue cmp = init_queue 1 cmp 1 ∧
    (init_resizable_priority_queue cmp).n = 1 ∧
    (init_resizable_priority_queue cmp).last_index = 0 ∧
    (init_resizable_priority_queue cmp).resize_if_needed ≠ 0 ∧
    (init_resizable_priority_queue cmp).cmp = cmp ∧
    (init_queue n cmp g).last_index = 0 ∧
    empty_pq (init_queue n cmp g) = 1 ∧
    live (init_queue n cmp g) = [] ∧
    heap_ok (init_queue n cmp g) ∧
    (0 ≤ n → wf (init_queue n cmp g)) := by
  refine ⟨rfl, rfl, rfl, rfl, rfl, rfl, rfl, rfl, ?_, rfl, rfl, rfl, live_init n cmp g,
    heap_ok_init n cmp g, fun h => init_queue_wf_int n h cmp g⟩
  show (1 : Int) ≠ 0
  decide

/-- Instance of C15: a fixed heap of capacity 4 is well formed. -/
theorem constructor_results_witness :
    (0 : Int) ≤ 4 ∧ wf (init_queue 4 min_cmp 0) :=
  ⟨by decide, (constructor_results min_cmp 4 0).2.2.2.2.2.2.2.2.2.2.2.2.2.2 (by decide)⟩

/-! Section: Choice of the swap target in sift-down -/

theorem sift_down_pick_both (pq : priority_queue) (i : Int) (h0 : 0 ≤ i)
    (hr : 2 * i + 2 < pq.last_index) :
    sift_down_pick pq i =
      if pq.cmp (if pq.cmp (rd pq.arr i) (rd pq.arr (2 * i + 1)) = 0
          then rd pq.arr (2 * i + 1) else rd pq.arr i) (rd pq.arr (2 * i + 2)) = 0
      then (rd pq.arr (2 * i + 2), 2 * i + 2)
      else if pq.cmp (rd pq.arr i) (rd pq.arr (2 * i + 1)) = 0
        then (rd pq.arr (2 * i + 1), 2 * i + 1) else (rd pq.arr i, i) := by
  have e1 : i * 2 + 1 = 2 * i + 1 := by omega
  have e2 : i * 2 + 2 = 2 * i + 2 := by omega
  have hls : left_son pq i = 2 * i + 1 := by
    unfold left_son; rw [if_neg (by omega), e1]
  have hrs : right_son pq i = 2 * i + 2 := by
    unfold right_son; rw [if_neg (by omega), e2]
  have n1 : 2 * i + 1 ≠ -1 := by omega
  have n2 : 2 * i + 2 ≠ -1 := by omega
  unfold sift_down_pick
  simp only [hls, hrs]
  by_cases c1 : pq.cmp (rd pq.arr i) (rd pq.arr (2 * i + 1)) = 0
  · by_cases c2 : pq.cmp (rd pq.arr (2 * i + 1)) (rd pq.arr (2 * i + 2)) = 0
    · simp [n1, n2, c1, c2]
    · simp [n1, n2, c1, c2]
  · by_cases c2 : pq.cmp (rd pq.arr i) (rd pq.arr (2 * i + 2)) = 0
    · simp [n1, n2, c1, c2]
    · simp [n1, n2, c1, c2]

/-- C16, the claim refuted at the state of its own example: when the sift-down of `pop_pq`
starts on the live slots `[9, 2, 2, 3, 4, 5]` under `min_cmp`, both sons of slot 0 are live and
tie, the swap target is the right son (slot 2) although it does not strictly outrank the left
son, and `pop_pq` ends with the live slots `[2, 2, 5, 3, 4, 9]`, not `[2, 3, 2, 9, 4, 5]`. -/
theorem sift_down_tie_takes_right :
    heap_ok sample_tie ∧ wf sample_tie ∧
      live (pop_move sample_tie) = [9, 2, 2, 3, 4, 5] ∧
      left_son (pop_move sample_tie) 0 = 1 ∧ right_son (pop_move sample_tie) 0 = 2 ∧
      (sift_down_pick (pop_move sample_tie) 0).2 = 2 ∧
      (pop_move sample_tie).cmp (rd (pop_move sample_tie).arr 2)
        (rd (pop_move sample_tie).arr 1) ≠ 1 ∧
      pop_pq sample_tie =
        Outcome.ret { n := 8, arr := [2, 2, 5, 3, 4, 9, 9, 0], last_index := 6,
                      resize_if_needed := 0, cmp := min_cmp } ∧
      live { n := 8, arr := [2, 2, 5, 3, 4, 9, 9, 0], last_index := 6,
             resize_if_needed := 0, cmp := min_cmp } = [2, 2, 5, 3, 4, 9] ∧
      ([2, 2, 5, 3, 4, 9] : List Int) ≠ [2, 3, 2, 9, 4, 5] :=
  ⟨by decide, by decide, by decide, by decide, by decide, by decide, by decide, rfl, by decide,
    by decide⟩

/-- C16 as amended: at a sift-down step where both sons of the current index `i` are live, the
right son becomes the swap target exactly when the comparator returns 0 for the pair (current
winner, right son), the winner being the left son if the comparator returned 0 for (current
element, left son) and the current element otherwise; so the right son is taken whenever the
winner does not strictly outrank it.  When the comparator returns 0 for (current, left) and for
(left, right), the step swaps the current element with the right son.  Under `min_cmp` or
`max_cmp`, when the two sons hold equal values and outrank the current element, the swap target
is the right son. -/
theorem sift_down_tie_break (pq : priority_queue) (i : Int) (h0 : 0 ≤ i)
    (hr : 2 * i + 2 < pq.last_index) :
    ((sift_down_pick pq i).2 = 2 * i + 2 ↔
      pq.cmp (if pq.cmp (rd pq.arr i) (rd pq.arr (2 * i + 1)) = 0
          then rd pq.arr (2 * i + 1) else rd pq.arr i) (rd pq.arr (2 * i + 2)) = 0) ∧
    (pq.cmp (rd pq.arr i) (rd pq.arr (2 * i + 1)) = 0 →
      pq.cmp (rd pq.arr (2 * i + 1)) (rd pq.arr (2 * i + 2)) = 0 →
      sift_down_step pq i =
        some ({ pq with arr := wr (wr pq.arr i (rd pq.arr (2 * i + 2))) (2 * i + 2)
                          (rd pq.arr i) }, 2 * i + 2)) ∧
    ((pq.cmp = min_cmp ∨ pq.cmp = max_cmp) → rd pq.arr (2 * i + 1) = rd pq.arr (2 * i + 2) →
      pq.cmp (rd pq.arr (2 * i + 1)) (rd pq.arr i) = 1 →
      (sift_down_pick pq i).2 = 2 * i + 2) := by
  have hp := sift_down_pick_both pq i h0 hr
  have key : pq.cmp (rd pq.arr i) (rd pq.arr (2 * i + 1)) = 0 →
      pq.cmp (rd pq.arr (2 * i + 1)) (rd pq.arr (2 * i + 2)) = 0 →
      sift_down_pick pq i = (rd pq.arr (2 * i + 2), 2 * i + 2) := by
    intro c1 c2
    rw [hp, if_pos c1, if_pos c2]
  refine ⟨?_, ?_, ?_⟩
  · rw [hp]
    constructor
    · intro h
      by_contra hc
      rw [if_neg hc] at h
      by_cases c1 : pq.cmp (rd pq.arr i) (rd pq.arr (2 * i + 1)) = 0
      · rw [if_pos c1] at h
        have h3 : 2 * i + 1 = 2 * i + 2 := h
        omega
      · rw [if_neg c1] at h
        have h3 : i = 2 * i + 2 := h
        omega
    · intro h
      rw [if_pos h]
  · intro c1 c2
    have hrs : right_son pq i ≠ -1 := by
      unfold right_son
      rw [if_neg (by omega)]
      omega
    unfold sift_down_step
    rw [if_pos (Or.inr hrs), key c1 c2, if_neg (by show ¬ i = 2 * i + 2; omega)]
  · intro hstd heq hout
    have ho := priority_order_of_std _ hstd
    have c1 : pq.cmp (rd pq.arr i) (rd pq.arr (2 * i + 1)) = 0 :=
      (ho.bool _ _).resolve_right (ho.asymm _ _ hout)
    have c2 : pq.cmp (rd pq.arr (2 * i + 1)) (rd pq.arr (2 * i + 2)) = 0 := by
      rw [heq]
      exact (ho.bool _ _).resolve_right (fun h => ho.asymm _ _ h h)
    rw [key c1 c2]

/-- Instance of the amended C16 at the example state, slot 0 of the live slots
`[9, 2, 2, 3, 4, 5]`. -/
theorem sift_down_tie_break_witness :
    (0 : Int) ≤ 0 ∧ 2 * 0 + 2 < (pop_move sample_tie).last_index ∧
      ((pop_move sample_tie).cmp = min_cmp ∨ (pop_move sample_tie).cmp = max_cmp) ∧
      rd (pop_move sample_tie).arr (2 * 0 + 1) = rd (pop_move sample_tie).arr (2 * 0 + 2) ∧
      (pop_move sample_tie).cmp (rd (pop_move sample_tie).arr (2 * 0 + 1))
        (rd (pop_move sample_tie).arr 0) = 1 ∧
      (sift_down_pick (pop_move sample_tie) 0).2 = 2 * 0 + 2 :=
  ⟨by decide, by decide, Or.inl rfl, by decide, by decide,
    (sift_down_tie_break (pop_move sample_tie) 0 (by decide) (by decide)).2.2 (Or.inl rfl)
      (by decide) (by decide)⟩

/-! Section: Comparator results other than 0 and 1 -/

/-- C17, the code with a comparator that returns 2 for "outranks": `cmp_two 3 5 = 2`.  The
sift-up test of `push_pq` (`== 1`) treats 2 as "does not outrank": with 3 stored below its father
5 the loop does not run, and pushing 5 then 3 into a fresh growable heap leaves `[5, 3]`, so
`top_pq` returns 5 and the smaller element stays below its father.  The sift-down test of
`pop_pq` (`== 0`) treats the same result as "outranks": on `[3, 5]` it leaves 3 above 5, and on
`[5, 3]` it moves 5 below 3. -/
theorem comparator_result_two :
    cmp_two 3 5 = 2 ∧
      sift_up_step { n := 2, arr := [5, 3], last_index := 1, resize_if_needed := 1,
                     cmp := cmp_two } 1 = none ∧
      run [Op.push 5, Op.push 3] (init_resizable_priority_queue cmp_two) =
        Outcome.ret { n := 2, arr := [5, 3], last_index := 2, resize_if_needed := 1,
                      cmp := cmp_two } ∧
      top_pq { n := 2, arr := [5, 3], last_index := 2, resize_if_needed := 1,
               cmp := cmp_two } = Outcome.ret 5 ∧
      sift_down_step { n := 2, arr := [3, 5], last_index := 2, resize_if_needed := 1,
                       cmp := cmp_two } 0 = none ∧
      sift_down_step { n := 2, arr := [5, 3], last_index := 2, resize_if_needed := 1,
                       cmp := cmp_two } 0 =
        some ({ n := 2, arr := [3, 5], last_index := 2, resize_if_needed := 1,
                cmp := cmp_two }, 1) :=
  ⟨by decide, rfl, rfl, rfl, rfl, rfl⟩

/-! Section: The path of sift-up -/

theorem sift_up_step_stop (pq : priority_queue) (i : Int)
    (h : i ≤ 0 ∨ pq.cmp (rd pq.arr i) (rd pq.arr ((i - 1) / 2)) ≠ 1) :
    sift_up_step pq i = none := by
  unfold sift_up_step
  by_cases hi : i ≤ 0
  · rw [father_nonpos pq i hi]
    simp
  · rw [father_pos pq i (by omega)]
    rcases h with h | h
    · exact absurd h hi
    · rw [if_neg (fun hc => h hc.2)]

theorem sift_up_stop (budget : Nat) (pq : priority_queue) (i : Int)
    (h : sift_up_step pq i = none) : sift_up budget pq i = some pq := by
  cases budget with
  | zero => unfold sift_up; rw [h]
  | succ b => unfold sift_up; rw [h]

theorem push_pq_no_swap (pq : priority_queue) (v : Int) (hw : wf pq)
    (hroom : pq.last_index < pq.n)
    (h : pq.last_index = 0 ∨ pq.cmp v (rd pq.arr ((pq.last_index - 1) / 2)) ≠ 1) :
    push_pq pq v =
      Outcome.ret { pq with arr := wr pq.arr pq.last_index v,
                            last_index := pq.last_index + 1 } := by
  obtain ⟨hlen, hl0, hln⟩ := hw
  have hs : sift_up_step { pq with arr := wr pq.arr pq.last_index v } pq.last_index = none := by
    apply sift_up_step_stop
    rcases h with h | h
    · left
      omega
    · by_cases hz : pq.last_index ≤ 0
      · exact Or.inl hz
      · right
        show pq.cmp (rd (wr pq.arr pq.last_index v) pq.last_index)
          (rd (wr pq.arr pq.last_index v) ((pq.last_index - 1) / 2)) ≠ 1
        rw [rd_wr_eq _ _ _ hl0 (by omega), rd_wr_ne _ _ _ _ (by omega)]
        exact h
  unfold push_pq
  rw [if_neg (by omega), if_neg (by omega)]
  unfold push_store
  rw [sift_up_stop _ _ _ hs]

theorem ancestor_succ (m : Nat) (i : Int) : ancestor (m + 1) i = (ancestor m i - 1) / 2 := rfl

theorem push_pq_path (pq : priority_queue) (v : Int) (hw : wf pq)
    (hroom : pq.last_index < pq.n) :
    ∃ r M, push_pq pq v = Outcome.ret r ∧
      (∀ m, m < M → 0 < ancestor m pq.last_index ∧
        pq.cmp v (rd pq.arr (ancestor (m + 1) pq.last_index)) = 1 ∧
        rd r.arr (ancestor m pq.last_index) = rd pq.arr (ancestor (m + 1) pq.last_index)) ∧
      rd r.arr (ancestor M pq.last_index) = v ∧
      (ancestor M pq.last_index = 0 ∨
        pq.cmp v (rd pq.arr (ancestor (M + 1) pq.last_index)) ≠ 1) ∧
      (∀ i : Int, (∀ m, m ≤ M → i ≠ ancestor m pq.last_index) → rd r.arr i = rd pq.arr i) := by
  obtain ⟨hlen, hl0, hln⟩ := hw
  obtain ⟨r, hr⟩ := sift_up_returns pq.last_index.toNat
    { pq with arr := wr pq.arr pq.last_index v } pq.last_index (le_refl _)
  let P : priority_queue → Int → Prop := fun q t =>
    q.cmp = pq.cmp ∧ q.arr.length = pq.arr.length ∧ 0 ≤ t ∧ t ≤ pq.last_index ∧
    ∃ M : Nat, t = ancestor M pq.last_index ∧
      (∀ m, m < M → 0 < ancestor m pq.last_index ∧ t < ancestor m pq.last_index ∧
        pq.cmp v (rd pq.arr (ancestor (m + 1) pq.last_index)) = 1 ∧
        rd q.arr (ancestor m pq.last_index) = rd pq.arr (ancestor (m + 1) pq.last_index)) ∧
      rd q.arr t = v ∧
      (∀ i : Int, (∀ m, m ≤ M → i ≠ ancestor m pq.last_index) → rd q.arr i = rd pq.arr i)
  have hP0 : P { pq with arr := wr pq.arr pq.last_index v } pq.last_index := by
    refine ⟨rfl, wr_length _ _ _, hl0, le_refl _, 0, rfl, ?_, ?_, ?_⟩
    · intro m hm
      omega
    · exact rd_wr_eq _ _ _ hl0 (by omega)
    · intro i hi
      have := hi 0 (le_refl _)
      exact rd_wr_ne _ _ _ _ (Ne.symm this)
  have hstep : ∀ q t q1 t1, P q t → sift_up_step q t = some (q1, t1) → P q1 t1 := by
    intro q t q1 t1 hP hs
    obtain ⟨hcmp, hlen1, ht0, htL, M, htM, hpast, hcur, hoff⟩ := hP
    obtain ⟨hpos, ht1, hc, hq1⟩ := sift_up_step_some q q1 t t1 hs
    subst hq1
    have hpar : rd q.arr t1 = rd pq.arr t1 := by
      apply hoff
      intro m hm
      rcases Nat.lt_or_eq_of_le hm with h | h
      · have := (hpast m h).2.1
        omega
      · rw [h, ← htM]
        omega
    have e1 : ancestor (M + 1) pq.last_index = t1 := by
      rw [ancestor_succ, ← htM, ht1]
    refine ⟨hcmp, ?_, by omega, by omega, M + 1, e1.symm, ?_, ?_, ?_⟩
    · show (wr (wr q.arr t1 (rd q.arr t)) t (rd q.arr t1)).length = pq.arr.length
      rw [wr_length, wr_length, hlen1]
    · intro m hm
      show _ ∧ _ ∧ _ ∧ rd (wr (wr q.arr t1 (rd q.arr t)) t (rd q.arr t1))
        (ancestor m pq.last_index) = _
      rcases Nat.lt_or_eq_of_le (Nat.lt_succ_iff.1 hm) with h | h
      · obtain ⟨a1, a2, a3, a4⟩ := hpast m h
        refine ⟨a1, by omega, a3, ?_⟩
        rw [rd_swap_other _ _ _ _ (by omega) (by omega)]
        exact a4
      · rw [h, ← htM]
        refine ⟨hpos, by omega, ?_, ?_⟩
        · rw [e1, ← hpar, ← hcmp]
          rw [hcur] at hc
          exact hc
        · rw [rd_swap_right _ _ _ (by omega) (by omega), e1]
          exact hpar
    · show rd (wr (wr q.arr t1 (rd q.arr t)) t (rd q.arr t1)) t1 = v
      rw [rd_swap_left _ _ _ (by omega) (by omega)]
      exact hcur
    · intro i hi
      show rd (wr (wr q.arr t1 (rd q.arr t)) t (rd q.arr t1)) i = rd pq.arr i
      have h1 : i ≠ t1 := by
        have := hi (M + 1) (le_refl _)
        rwa [e1] at this
      have h2 : i ≠ t := by
        have := hi M (Nat.le_succ _)
        rwa [← htM] at this
      rw [rd_swap_other _ _ _ _ h1 h2]
      exact hoff i (fun m hm => hi m (Nat.le_succ_of_le hm))
  obtain ⟨j, hPj, hnone⟩ := sift_up_induct P hstep _ _ r _ hP0 hr
  obtain ⟨hcmp, hlen1, hj0, hjL, M, hjM, hpast, hcur, hoff⟩ := hPj
  refine ⟨{ r with last_index := r.last_index + 1 }, M, ?_, ?_, ?_, ?_, hoff⟩
  · unfold push_pq
    rw [if_neg (by omega), if_neg (by omega)]
    unfold push_store
    rw [hr]
  · intro m hm
    obtain ⟨a1, -, a3, a4⟩ := hpast m hm
    exact ⟨a1, a3, a4⟩
  · rw [← hjM]
    exact hcur
  · rw [← hjM]
    by_cases hz : j = 0
    · exact Or.inl hz
    · right
      have hx := sift_up_step_none r j hnone
      rcases hx with hx | hx
      · omega
      · rw [hcmp, hcur] at hx
        have hpar : rd r.arr ((j - 1) / 2) = rd pq.arr ((j - 1) / 2) := by
          apply hoff
          intro m hm
          rcases Nat.lt_or_eq_of_le hm with h | h
          · have := (hpast m h).2.1
            omega
          · rw [h, ← hjM]
            omega
        rw [hpar] at hx
        rw [ancestor_succ, ← hjM]
        exact hx

/-- C18: sift-up stops at the first comparison that is not strict.  For a heap with
`size < capacity` and any comparator: if `size = 0` or `v` does not strictly outrank
`storage[(size - 1) / 2]` (ties included), `push_pq` returns the heap with `v` stored at slot
`size` and every other slot as before.  In general `push_pq` returns after some number `M` of
swaps along the father chain of slot `size`: at each of the `M` chain slots passed `v` strictly
outranked the father, whose old value moved down into that slot; `v` ends at the `M`-th ancestor,
which is index 0 or holds a father that `v` does not strictly outrank; slots off the chain are
unchanged; and `M ≥ 1` exactly in the case that is not the first one. -/
theorem push_pq_sift_up_path (pq : priority_queue) (v : Int) (hw : wf pq)
    (hroom : pq.last_index < pq.n) :
    ((pq.last_index = 0 ∨ pq.cmp v (rd pq.arr ((pq.last_index - 1) / 2)) ≠ 1) →
      push_pq pq v =
        Outcome.ret { pq with arr := wr pq.arr pq.last_index v,
                              last_index := pq.last_index + 1 }) ∧
    ∃ r M, push_pq pq v = Outcome.ret r ∧
      (∀ m, m < M → 0 < ancestor m pq.last_index ∧
        pq.cmp v (rd pq.arr (ancestor (m + 1) pq.last_index)) = 1 ∧
        rd r.arr (ancestor m pq.last_index) = rd pq.arr (ancestor (m + 1) pq.last_index)) ∧
      rd r.arr (ancestor M pq.last_index) = v ∧
      (ancestor M pq.last_index = 0 ∨
        pq.cmp v (rd pq.arr (ancestor (M + 1) pq.last_index)) ≠ 1) ∧
      (∀ i : Int, (∀ m, m ≤ M → i ≠ ancestor m pq.last_index) → rd r.arr i = rd pq.arr i) ∧
      (1 ≤ M ↔ ¬ (pq.last_index = 0 ∨ pq.cmp v (rd pq.arr ((pq.last_index - 1) / 2)) ≠ 1)) := by
  refine ⟨push_pq_no_swap pq v hw hroom, ?_⟩
  obtain ⟨r, M, h1, h2, h3, h4, h5⟩ := push_pq_path pq v hw hroom
  refine ⟨r, M, h1, h2, h3, h4, h5, ?_⟩
  constructor
  · intro hM hstop
    obtain ⟨a1, a2, -⟩ := h2 0 (by omega)
    have e0 : ancestor 0 pq.last_index = pq.last_index := rfl
    have e1 : ancestor 1 pq.last_index = (pq.last_index - 1) / 2 := rfl
    rw [e0] at a1
    rw [e1] at a2
    rcases hstop with h | h
    · omega
    · exact h a2
  · intro hns
    by_contra hM
    have hM0 : M = 0 := by omega
    subst hM0
    have e0 : ancestor 0 pq.last_index = pq.last_index := rfl
    have e1 : ancestor 1 pq.last_index = (pq.last_index - 1) / 2 := rfl
    rw [e0, e1] at h4
    exact hns h4

/-- Instance of C18: pushing 8 into the max-heap `[9, 4, 7]` with one free slot. -/
theorem push_pq_sift_up_path_witness :
    wf sample_room ∧ sample_room.last_index < sample_room.n ∧
      ∃ r M, push_pq sample_room 8 = Outcome.ret r ∧
        (∀ m, m < M → 0 < ancestor m sample_room.last_index ∧
          sample_room.cmp 8 (rd sample_room.arr (ancestor (m + 1) sample_room.last_index)) = 1 ∧
          rd r.arr (ancestor m sample_room.last_index) =
            rd sample_room.arr (ancestor (m + 1) sample_room.last_index)) ∧
        rd r.arr (ancestor M sample_room.last_index) = 8 ∧
        (ancestor M sample_room.last_index = 0 ∨
          sample_room.cmp 8 (rd sample_room.arr (ancestor (M + 1) sample_room.last_index)) ≠ 1) ∧
        (∀ i : Int, (∀ m, m ≤ M → i ≠ ancestor m sample_room.last_index) →
          rd r.arr i = rd sample_room.arr i) ∧
        (1 ≤ M ↔ ¬ (sample_room.last_index = 0 ∨
          sample_room.cmp 8 (rd sample_room.arr ((sample_room.last_index - 1) / 2)) ≠ 1)) :=
  ⟨by decide, by decide, (push_pq_sift_up_path sample_room 8 (by decide) (by decide)).2⟩

/-- C19: both loops terminate for every comparator.  Each pass of the sift-up loop that does not
leave the loop moves the index to a strictly smaller, non-negative one; each pass of the
sift-down loop that does not leave the loop moves the index to a strictly larger one that is
still below `last_index`, which the loop does not change.  Hence sift-up started at index `i`
leaves the loop within `i` passes, sift-down started at index `i ≥ 0` leaves it within
`last_index - i` passes, and `push_pq` and `pop_pq`, which allow `last_index` passes, never run
out of passes: they return or crash. -/
theorem loops_terminate :
    (∀ (pq pq1 : priority_queue) (i i1 : Int),
      sift_up_step pq i = some (pq1, i1) → 0 ≤ i1 ∧ i1 < i) ∧
    (∀ (pq pq1 : priority_queue) (i i1 : Int), 0 ≤ i →
      sift_down_step pq i = some (pq1, i1) →
        i < i1 ∧ i1 < pq.last_index ∧ pq1.last_index = pq.last_index) ∧
    (∀ (pq : priority_queue) (i : Int), ∃ r, sift_up i.toNat pq i = some r) ∧
    (∀ (pq : priority_queue) (i : Int), 0 ≤ i →
      ∃ r, sift_down (pq.last_index - i).toNat pq i = some r) ∧
    (∀ (pq : priority_queue) (v : Int), push_pq pq v ≠ Outcome.out_of_budget) ∧
    (∀ pq : priority_queue, pop_pq pq ≠ Outcome.out_of_budget) := by
  refine ⟨?_, ?_, ?_, ?_, ?_, ?_⟩
  · intro pq pq1 i i1 h
    obtain ⟨h1, h2, -, -⟩ := sift_up_step_some pq pq1 i i1 h
    omega
  · intro pq pq1 i i1 h0 h
    obtain ⟨-, h2, h3, h4⟩ := sift_down_step_some pq pq1 i i1 h
    refine ⟨by omega, h3, ?_⟩
    rw [h4]
  · intro pq i
    exact sift_up_returns i.toNat pq i (le_refl _)
  · intro pq i h0
    exact sift_down_returns _ pq i h0 (le_refl _)
  · intro pq v h
    rcases push_pq_cases pq v with ⟨-, -, hc⟩ | ⟨-, r1, hr, -, -, -⟩
    · rw [hc] at h; exact Outcome.noConfusion h
    · rw [hr] at h; exact Outcome.noConfusion h
  · intro pq h
    rcases pop_pq_cases pq with ⟨-, hc⟩ | ⟨-, r1, hr, -, -, -⟩
    · rw [hc] at h; exact Outcome.noConfusion h
    · rw [hr] at h; exact Outcome.noConfusion h

/-- Instance of C19: the first pass of sift-down on the live slots `[9, 2, 2, 3, 4, 5]` moves
the index from 0 to 2, below the size 6. -/
theorem loops_terminate_witness :
    (0 : Int) ≤ 0 ∧
      sift_down_step (pop_move sample_tie) 0 =
        some ({ n := 8, arr := [2, 2, 9, 3, 4, 5, 9, 0], last_index := 6,
                resize_if_needed := 0, cmp := min_cmp }, 2) ∧
      (0 : Int) < 2 ∧ (2 : Int) < (pop_move sample_tie).last_index :=
  ⟨by decide, rfl,
    (loops_terminate.2.1 (pop_move sample_tie)
      { n := 8, arr := [2, 2, 9, 3, 4, 5, 9, 0], last_index := 6, resize_if_needed := 0,
        cmp := min_cmp } 0 2 (by decide) rfl).1,
    (loops_terminate.2.1 (pop_move sample_tie)
      { n := 8, arr := [2, 2, 9, 3, 4, 5, 9, 0], last_index := 6, resize_if_needed := 0,
        cmp := min_cmp } 0 2 (by decide) rfl).2.1⟩

/-! Section: Growth from capacity 0 -/

end PQ
